import Mathlib

/-!
Verification of the nsys-chrome trace linker and writer
(`src/linker/adapters.rs`, `src/linker/algorithms.rs`, `src/writer.rs`).

Events are the `ChromeTraceEvent` records of the repository.  The linker
touches only the open attribute bag `args` (JSON values looked up by key)
and the reference identity of each event (in Rust, the memory address of
the `&ChromeTraceEvent` reference, used for `std::ptr::eq`, for the
`source_index_map` keys and for `NsysEventAdapter::get_event_id`).  We
model a reference as the record value together with an `addr` field that
stands for the address; distinct live Rust events always have distinct
addresses.  Rust `HashMap`s are modelled as association lists with the
same `entry`/`insert`/lookup semantics; every statement below is phrased
through lookups and membership, which are independent of the hash
iteration order.
-/

/-- Modelled from the spec: the attribute-bag values are JSON values
(the repository stores `serde_json::Value`; `models.rs` itself is not in
the analysed sources).  Only integer-ness matters to the linker, via
`as_i64`, which yields the value when it is an integer representable in
64 bits. -/
inductive JsonValue where
  | jint : Int → JsonValue
  | jstr : String → JsonValue
  | jnull : JsonValue
deriving DecidableEq

/-- `serde_json::Value::as_i64`: the integer when in `i64` range. -/
def JsonValue.as_i64 : JsonValue → Option Int
  | .jint n => if -(2 ^ 63) ≤ n ∧ n < 2 ^ 63 then some n else none
  | _ => none

/-- Modelled from the spec: a trace event, restricted to what the linker
reads — the attribute bag `args` — plus `addr`, the reference identity
(memory address) of the event.  The remaining display fields of
`ChromeTraceEvent` (name, ts, …) are never read by the linker. -/
structure ChromeTraceEvent where
  addr : Nat
  args : List (String × JsonValue)
deriving DecidableEq

/-- `event.args.get(key)` on the JSON map. -/
def argsGet (args : List (String × JsonValue)) (k : String) : Option JsonValue :=
  (args.find? (fun p => decide (p.1 = k))).map (·.2)

/-- The `EventAdapter` trait of `adapters.rs`. -/
structure EventAdapter where
  get_time_range : ChromeTraceEvent → Option (Int × Int)
  get_correlation_id : ChromeTraceEvent → Option Int
  get_event_id : ChromeTraceEvent → Nat

/-- The `v as i32` cast on an `i64` value: truncate to 32 bits and
reinterpret as signed. -/
def i64_as_i32 (v : Int) : Int :=
  let m := v % (2 ^ 32)
  if m < 2 ^ 31 then m else m - 2 ^ 32

/-- `NsysEventAdapter::get_time_range`: both nanosecond fields read from
the attribute bag, `None` if either is absent or non-integer. -/
def nsysGetTimeRange (event : ChromeTraceEvent) : Option (Int × Int) :=
  match (argsGet event.args ("start_ns")).bind JsonValue.as_i64 with
  | none => none
  | some start_ns =>
    match (argsGet event.args ("end_ns")).bind JsonValue.as_i64 with
    | none => none
    | some end_ns => some (start_ns, end_ns)

/-- `NsysEventAdapter::get_correlation_id`: the `correlationId` field as
`i64`, cast with `as i32`. -/
def nsysGetCorrelationId (event : ChromeTraceEvent) : Option Int :=
  ((argsGet event.args ("correlationId")).bind JsonValue.as_i64).map i64_as_i32

/-- `NsysEventAdapter::get_event_id`: the pointer address as unique id. -/
def nsysGetEventId (event : ChromeTraceEvent) : Nat :=
  event.addr

/-- The `NsysEventAdapter` implementation bundled as an adapter value. -/
def NsysEventAdapter : EventAdapter :=
  ⟨nsysGetTimeRange, nsysGetCorrelationId, nsysGetEventId⟩

/-- Association-list lookup, the model of `HashMap` lookup. -/
def lookupEntry {κ α : Type} [DecidableEq κ] (m : List (κ × α)) (k : κ) : Option α :=
  (m.find? (fun p => decide (p.1 = k))).map (·.2)

/-- The model of `map.entry(k).or_insert_with(Vec::new).push(v)`:
append `v` to the bucket of `k`, creating the bucket if absent. -/
def pushEntry {κ α : Type} [DecidableEq κ] :
    List (κ × List α) → κ → α → List (κ × List α)
  | [], k, v => [(k, [v])]
  | p :: rest, k, v =>
    if p.1 = k then (p.1, p.2 ++ [v]) :: rest else p :: pushEntry rest k v

/-- The model of `HashMap::insert`: replace the binding if the key is
present, otherwise add it. -/
def insertReplace {κ α : Type} [DecidableEq κ] :
    List (κ × α) → κ → α → List (κ × α)
  | [], k, v => [(k, v)]
  | p :: rest, k, v =>
    if p.1 = k then (k, v) :: rest else p :: insertReplace rest k v

/-- `build_correlation_map` from `algorithms.rs`: fold the kernel list,
pushing each kernel that has a correlation id onto that id's bucket. -/
def build_correlation_map (kernel_events : List ChromeTraceEvent)
    (adapter : EventAdapter) : List (Int × List ChromeTraceEvent) :=
  kernel_events.foldl
    (fun m k =>
      match adapter.get_correlation_id k with
      | some corr_id => pushEntry m corr_id k
      | none => m)
    []

/-- `aggregate_kernel_times` from `algorithms.rs`: running min of starts
and max of ends over the kernels with a valid time range. -/
def aggregate_kernel_times (kernels : List ChromeTraceEvent)
    (adapter : EventAdapter) : Option (Int × Int) :=
  let acc := kernels.foldl
    (fun (acc : Option Int × Option Int) kernel_event =>
      match adapter.get_time_range kernel_event with
      | some (kernel_start, kernel_end) =>
        (some ((acc.1.map (fun t => min t kernel_start)).getD kernel_start),
         some ((acc.2.map (fun t => max t kernel_end)).getD kernel_end))
      | none => acc)
    (none, none)
  match acc with
  | (some s, some e) => some (s, e)
  | _ => none

/-- `find_kernels_for_annotation` from `algorithms.rs`: for each API
event with a correlation id whose bucket exists and is non-empty, extend
the output with that bucket. -/
def find_kernels_for_annotation (overlapping_api_events : List ChromeTraceEvent)
    (correlation_map : List (Int × List ChromeTraceEvent))
    (adapter : EventAdapter) : List ChromeTraceEvent :=
  overlapping_api_events.foldl
    (fun found_kernels api_event =>
      match adapter.get_correlation_id api_event with
      | some corr_id =>
        match lookupEntry correlation_map corr_id with
        | some kernels => if kernels.isEmpty then found_kernels else found_kernels ++ kernels
        | none => found_kernels
      | none => found_kernels)
    []

/-- Marker origin in the sweep (the `EventOrigin` enum). -/
inductive EventOrigin where
  | Source : EventOrigin
  | Target : EventOrigin
deriving DecidableEq

/-- `matches!(origin, EventOrigin::Source) as u8`. -/
def originKey : EventOrigin → Nat
  | .Source => 1
  | .Target => 0

/-- A sweep marker (the `SweepEvent` struct): timestamp, polarity
(`1` start / `-1` end), origin, and the carried event reference. -/
structure SweepEvent where
  timestamp : Int
  event_type : Int
  origin : EventOrigin
  event_ref : ChromeTraceEvent
deriving DecidableEq

/-- `i64::cmp` (and `u8::cmp`, via the coercion) as used by `sort_by`. -/
def intCmp (a b : Int) : Ordering :=
  if a < b then .lt else if a = b then .eq else .gt

/-- The exact comparator of the `mixed_events.sort_by` call: timestamp
ascending, then start (`1`) before end (`-1`), then Source before
Target. -/
def sweepCmp (a b : SweepEvent) : Ordering :=
  (intCmp a.timestamp b.timestamp).then
    ((intCmp b.event_type a.event_type).then
      (intCmp (originKey b.origin) (originKey a.origin)))

/-- The `le` relation sorted by: `a` may precede `b` unless the
comparator says `a` is strictly greater.  Rust's stable `sort_by` with a
total comparator produces exactly the stable merge sort under this
relation. -/
def sweepLE (a b : SweepEvent) : Bool :=
  decide (sweepCmp a b ≠ Ordering.gt)

/-- The start/end marker pair emission loops of
`find_overlapping_intervals` (one loop per origin): each event with a
valid time range contributes a start marker and an end marker. -/
def markersOf (adapter : EventAdapter) (o : EventOrigin)
    (events : List ChromeTraceEvent) : List SweepEvent :=
  events.flatMap (fun e =>
    match adapter.get_time_range e with
    | some (s, t) => [⟨s, 1, o, e⟩, ⟨t, -1, o, e⟩]
    | none => [])

/-- The `mixed_events` list: source markers then target markers, in
input order. -/
def mixedEventsOf (adapter : EventAdapter)
    (source_events target_events : List ChromeTraceEvent) : List SweepEvent :=
  markersOf adapter .Source source_events ++ markersOf adapter .Target target_events

/-- The `source_index_map` built by collecting `(address, index)` pairs
into a `HashMap`: the lookup yields the index of the last occurrence of
the address in the source list. -/
def lookupLastIdx : List ChromeTraceEvent → Nat → Option Nat
  | [], _ => none
  | e :: rest, a =>
    match lookupLastIdx rest a with
    | some j => some (j + 1)
    | none => if e.addr = a then some 0 else none

/-- Remove the first element whose address matches (the
`position(|e| std::ptr::eq(..))` / `remove(pos)` pair); no-op when no
element matches. -/
def removeFirstByAddr : List ChromeTraceEvent → Nat → List ChromeTraceEvent
  | [], _ => []
  | e :: rest, a => if e.addr = a then rest else e :: removeFirstByAddr rest a

/-- One iteration of the sweep loop.  The state is
`(active_source_intervals, result_by_index)`.  The `HashMap` index
`source_index_map[&addr]` panics when the key is absent; the model
returns `none` there, and the safety theorem shows this never happens. -/
def sweepStep (smap : Nat → Option Nat)
    (st : List ChromeTraceEvent × List (Nat × List ChromeTraceEvent))
    (se : SweepEvent) :
    Option (List ChromeTraceEvent × List (Nat × List ChromeTraceEvent)) :=
  if se.event_type = 1 then
    if se.origin = EventOrigin.Source then
      some (st.1 ++ [se.event_ref], st.2)
    else
      (st.1.foldlM
        (fun r source_event =>
          (smap source_event.addr).map (fun idx => pushEntry r idx se.event_ref))
        st.2).map (fun r => (st.1, r))
  else
    if se.origin = EventOrigin.Source then
      some (removeFirstByAddr st.1 se.event_ref.addr, st.2)
    else
      some st

/-- `find_overlapping_intervals`, with the two panic sites (the index
map lookup and the `source_events[idx]` index) surfaced as `Option`. -/
def find_overlapping_intervals? (source_events target_events : List ChromeTraceEvent)
    (adapter : EventAdapter) : Option (List (Nat × List ChromeTraceEvent)) :=
  (((mixedEventsOf adapter source_events target_events).mergeSort sweepLE).foldlM
      (sweepStep (lookupLastIdx source_events)) ([], [])).bind
    (fun st => st.2.foldlM
      (fun result kv => (source_events.get? kv.1).bind
        (fun source_event => some (insertReplace result (adapter.get_event_id source_event) kv.2)))
      [])

/-- `find_overlapping_intervals` as the total function it is in the
source (the safety theorem shows the `Option` is always `some`). -/
def find_overlapping_intervals (source_events target_events : List ChromeTraceEvent)
    (adapter : EventAdapter) : List (Nat × List ChromeTraceEvent) :=
  (find_overlapping_intervals? source_events target_events adapter).getD []

/-- Membership of a target in the bucket of a key of an overlap map. -/
def MemBucket {κ : Type} [DecidableEq κ] (m : List (κ × List ChromeTraceEvent))
    (k : κ) (x : ChromeTraceEvent) : Prop :=
  ∃ l, lookupEntry m k = some l ∧ x ∈ l

instance {κ : Type} [DecidableEq κ] (m : List (κ × List ChromeTraceEvent))
    (k : κ) (x : ChromeTraceEvent) : Decidable (MemBucket m k x) := by
  unfold MemBucket
  match h : lookupEntry m k with
  | some l =>
    exact decidable_of_iff (x ∈ l) (by simp [h])
  | none =>
    exact .isFalse (by simp [h])

/-- Presence of a key in an overlap map. -/
def KeyIn {κ : Type} [DecidableEq κ] (m : List (κ × List ChromeTraceEvent))
    (k : κ) : Prop :=
  ∃ l, lookupEntry m k = some l

instance {κ : Type} [DecidableEq κ] (m : List (κ × List ChromeTraceEvent))
    (k : κ) : Decidable (KeyIn m k) := by
  unfold KeyIn
  match h : lookupEntry m k with
  | some l => exact .isTrue ⟨l, rfl⟩
  | none => exact .isFalse (by simp [h])

/-- The opening bytes `\x7b"traceEvents":[` written by every writer
entry point. -/
def openingBytes : List Nat :=
  "\x7b\"traceEvents\":[".toList.map Char.toNat

/-- The closing bytes `]\x7d`. -/
def closingBytes : List Nat :=
  "]\x7d".toList.map Char.toNat

/-- The separator byte written between events. -/
def commaBytes : List Nat :=
  ",".toList.map Char.toNat

/-- The event loop of `ChromeTraceWriter::write`: each event is
serialized and written to the sink, preceded by a comma when its index
is positive.  `ser` models `serde_json::to_vec` on a full event record;
`out` is the byte sequence handed to the underlying sink so far. -/
def writeLoop (ser : ChromeTraceEvent → List Nat) :
    List ChromeTraceEvent → Nat → List Nat → List Nat
  | [], _, out => out
  | e :: rest, i, out =>
    writeLoop ser rest (i + 1) (out ++ (if i > 0 then commaBytes else []) ++ ser e)

/-- The byte sequence `ChromeTraceWriter::write` feeds to its sink. -/
def writeFed (ser : ChromeTraceEvent → List Nat)
    (events : List ChromeTraceEvent) : List Nat :=
  writeLoop ser events 0 openingBytes ++ closingBytes

/-- The event loop shared by the two gzip entry points: serialized
events accumulate in `batch`, which is flushed to the encoder (appended
to `fed`) whenever it reaches the 128 KiB threshold. -/
def writeGzLoop (ser : ChromeTraceEvent → List Nat) :
    List ChromeTraceEvent → Nat → List Nat × List Nat → List Nat × List Nat
  | [], _, st => st
  | e :: rest, i, st =>
    let batch := st.1 ++ (if i > 0 then commaBytes else []) ++ ser e
    writeGzLoop ser rest (i + 1)
      (if batch.length ≥ 128 * 1024 then ([], st.2 ++ batch) else (batch, st.2))

/-- The byte sequence `ChromeTraceWriter::write_gz_single_threaded`
feeds to its gzip encoder: the batched loop, then the closing bytes,
then the final non-empty-batch flush. -/
def writeGzSingleThreadedFed (ser : ChromeTraceEvent → List Nat)
    (events : List ChromeTraceEvent) : List Nat :=
  let st := writeGzLoop ser events 0 (openingBytes, [])
  let batch := st.1 ++ closingBytes
  if batch.isEmpty then st.2 else st.2 ++ batch

/-- The byte sequence `ChromeTraceWriter::write_gz` feeds to its
parallel gzip encoder; the batching logic is the same code as the
single-threaded variant, written out separately in the source. -/
def writeGzFed (ser : ChromeTraceEvent → List Nat)
    (events : List ChromeTraceEvent) : List Nat :=
  let st := writeGzLoop ser events 0 (openingBytes, [])
  let batch := st.1 ++ closingBytes
  if batch.isEmpty then st.2 else st.2 ++ batch

/-! ### Association-list lemmas -/

theorem lookupEntry_nil {κ α : Type} [DecidableEq κ] (k : κ) :
    lookupEntry ([] : List (κ × α)) k = none := rfl

theorem lookupEntry_cons {κ α : Type} [DecidableEq κ] (p : κ × α)
    (rest : List (κ × α)) (k : κ) :
    lookupEntry (p :: rest) k = if p.1 = k then some p.2 else lookupEntry rest k := by
  by_cases h : p.1 = k <;> simp [lookupEntry, List.find?_cons, h]

theorem lookupEntry_pushEntry {κ α : Type} [DecidableEq κ]
    (m : List (κ × List α)) (k k' : κ) (v : α) :
    lookupEntry (pushEntry m k v) k' =
      if k' = k then some (((lookupEntry m k).getD []) ++ [v])
      else lookupEntry m k' := by
  induction m with
  | nil =>
    by_cases h : k' = k
    · subst h; simp [pushEntry, lookupEntry_cons, lookupEntry_nil]
    · have h2 : ¬ k = k' := fun hh => h hh.symm
      simp [pushEntry, lookupEntry_cons, lookupEntry_nil, h, h2]
  | cons p rest ih =>
    by_cases hp : p.1 = k
    · subst hp
      by_cases h : k' = p.1
      · subst h
        simp [pushEntry, lookupEntry_cons]
      · have h2 : ¬ p.1 = k' := fun hh => h hh.symm
        simp [pushEntry, lookupEntry_cons, h, h2]
    · by_cases h : k' = k
      · subst h
        have h2 : ¬ p.1 = k' := hp
        simp [pushEntry, lookupEntry_cons, hp, h2, ih]
      · by_cases hpk : p.1 = k'
        · simp [pushEntry, lookupEntry_cons, hp, hpk, h]
        · simp [pushEntry, lookupEntry_cons, hp, hpk, h, ih]

/-! ### C4: build_correlation_map groups strictly by identifier -/

theorem build_correlation_map_fold (adapter : EventAdapter)
    (kernels : List ChromeTraceEvent) (m : List (Int × List ChromeTraceEvent)) (c : Int) :
    lookupEntry
        (kernels.foldl
          (fun m k =>
            match adapter.get_correlation_id k with
            | some corr_id => pushEntry m corr_id k
            | none => m)
          m) c =
      if lookupEntry m c = none ∧
          kernels.filter (fun k => decide (adapter.get_correlation_id k = some c)) = []
      then none
      else some (((lookupEntry m c).getD []) ++
        kernels.filter (fun k => decide (adapter.get_correlation_id k = some c))) := by
  induction kernels generalizing m with
  | nil =>
    cases h : lookupEntry m c <;> simp [List.foldl, h]
  | cons k ks ih =>
    cases hid : adapter.get_correlation_id k with
    | none =>
      have hfil : (decide (adapter.get_correlation_id k = some c)) = false := by
        simp [hid]
      simp only [List.foldl_cons, hid, List.filter_cons, hfil, Bool.false_eq_true,
        if_false]
      exact ih m
    | some cid =>
      by_cases hc : cid = c
      · subst hc
        have hfil : (decide (adapter.get_correlation_id k = some cid)) = true := by
          simp [hid]
        simp only [List.foldl_cons, hid, List.filter_cons, hfil, if_true]
        rw [ih (pushEntry m cid k), lookupEntry_pushEntry]
        simp
      · have hfil : (decide (adapter.get_correlation_id k = some c)) = false := by
          simp [hid, hc]
        simp only [List.foldl_cons, hid, List.filter_cons, hfil, Bool.false_eq_true,
          if_false]
        rw [ih (pushEntry m cid k), lookupEntry_pushEntry]
        have hcc : ¬ c = cid := fun hh => hc hh.symm
        rw [if_neg hcc]
        simp [hc]

/-- C4: `build_correlation_map` groups events strictly by
correlation-identifier equality: the bucket of identifier `c` exists iff
some kernel yields `c`, and then equals exactly the kernels yielding
`c`, in input-list order; kernels for which the adapter yields no
identifier appear in no bucket, and the computation is total (no
error). -/
theorem c4_correlation_buckets (kernels : List ChromeTraceEvent)
    (adapter : EventAdapter) (c : Int) :
    lookupEntry (build_correlation_map kernels adapter) c =
      if kernels.filter (fun k => decide (adapter.get_correlation_id k = some c)) = []
      then none
      else some (kernels.filter (fun k => decide (adapter.get_correlation_id k = some c))) := by
  unfold build_correlation_map
  rw [build_correlation_map_fold]
  simp [lookupEntry_nil]

/-! ### C3: aggregate_kernel_times is (min start, max end) or absent -/

theorem aggregate_fold_split (adapter : EventAdapter) (kernels : List ChromeTraceEvent)
    (acc : Option Int × Option Int) :
    (kernels.foldl
      (fun (acc : Option Int × Option Int) kernel_event =>
        match adapter.get_time_range kernel_event with
        | some (kernel_start, kernel_end) =>
          (some ((acc.1.map (fun t => min t kernel_start)).getD kernel_start),
           some ((acc.2.map (fun t => max t kernel_end)).getD kernel_end))
        | none => acc)
      acc) =
    ((kernels.filterMap adapter.get_time_range).foldl
        (fun o p => some ((o.map (fun t => min t p.1)).getD p.1)) acc.1,
     (kernels.filterMap adapter.get_time_range).foldl
        (fun o p => some ((o.map (fun t => max t p.2)).getD p.2)) acc.2) := by
  induction kernels generalizing acc with
  | nil => simp
  | cons k ks ih =>
    cases hr : adapter.get_time_range k with
    | none => simp [List.filterMap_cons, hr, ih]
    | some p =>
      cases p with
      | mk s e => simp [List.filterMap_cons, hr, ih]

theorem minFold_ne_none (l : List (Int × Int)) (a : Int) :
    l.foldl (fun o p => some ((o.map (fun t => min t p.1)).getD p.1)) (some a) ≠ none := by
  induction l generalizing a with
  | nil => simp
  | cons p rest ih => simpa using ih (min a p.1)

theorem maxFold_ne_none (l : List (Int × Int)) (a : Int) :
    l.foldl (fun o p => some ((o.map (fun t => max t p.2)).getD p.2)) (some a) ≠ none := by
  induction l generalizing a with
  | nil => simp
  | cons p rest ih => simpa using ih (max a p.2)

theorem minFold_spec (l : List (Int × Int)) (o : Option Int) (a : Int)
    (h : l.foldl (fun o p => some ((o.map (fun t => min t p.1)).getD p.1)) o = some a) :
    (∀ s ∈ l.map Prod.fst, a ≤ s) ∧ (∀ t, o = some t → a ≤ t) ∧
      (a ∈ l.map Prod.fst ∨ o = some a) := by
  induction l generalizing o with
  | nil =>
    refine ⟨by simp, ?_, Or.inr (by simpa using h)⟩
    intro t ht
    simp only [List.foldl_nil] at h
    rw [ht] at h
    exact le_of_eq (Option.some_injective _ h).symm
  | cons p rest ih =>
    simp only [List.foldl_cons] at h
    obtain ⟨h1, h2, h3⟩ := ih _ h
    have hv : a ≤ (o.map (fun t => min t p.1)).getD p.1 := h2 _ rfl
    cases ho : o with
    | none =>
      subst ho
      simp only [Option.map_none, Option.getD_none] at hv h3
      refine ⟨?_, by simp, ?_⟩
      · intro s hs
        rcases List.mem_cons.mp hs with hs | hs
        · exact hs ▸ hv
        · exact h1 s hs
      · rcases h3 with h3 | h3
        · exact Or.inl (List.mem_cons_of_mem _ h3)
        · exact Or.inl (List.mem_cons.mpr (Or.inl (Option.some_injective _ h3).symm))
    | some t0 =>
      subst ho
      simp only [Option.map_some, Option.getD_some] at hv h3
      refine ⟨?_, ?_, ?_⟩
      · intro s hs
        rcases List.mem_cons.mp hs with hs | hs
        · exact hs ▸ le_trans hv (min_le_right _ _)
        · exact h1 s hs
      · intro t ht
        have htt : t0 = t := Option.some_injective _ ht
        subst htt
        exact le_trans hv (min_le_left _ _)
      · rcases h3 with h3 | h3
        · exact Or.inl (List.mem_cons_of_mem _ h3)
        · have ha : a = min t0 p.1 := (Option.some_injective _ h3).symm
          rcases min_choice t0 p.1 with hm | hm
          · exact Or.inr (by rw [ha, hm])
          · exact Or.inl (List.mem_cons.mpr (Or.inl (by rw [ha, hm])))

theorem maxFold_spec (l : List (Int × Int)) (o : Option Int) (a : Int)
    (h : l.foldl (fun o p => some ((o.map (fun t => max t p.2)).getD p.2)) o = some a) :
    (∀ s ∈ l.map Prod.snd, s ≤ a) ∧ (∀ t, o = some t → t ≤ a) ∧
      (a ∈ l.map Prod.snd ∨ o = some a) := by
  induction l generalizing o with
  | nil =>
    refine ⟨by simp, ?_, Or.inr (by simpa using h)⟩
    intro t ht
    simp only [List.foldl_nil] at h
    rw [ht] at h
    exact le_of_eq (Option.some_injective _ h)
  | cons p rest ih =>
    simp only [List.foldl_cons] at h
    obtain ⟨h1, h2, h3⟩ := ih _ h
    have hv : (o.map (fun t => max t p.2)).getD p.2 ≤ a := h2 _ rfl
    cases ho : o with
    | none =>
      subst ho
      simp only [Option.map_none, Option.getD_none] at hv h3
      refine ⟨?_, by simp, ?_⟩
      · intro s hs
        rcases List.mem_cons.mp hs with hs | hs
        · exact hs ▸ hv
        · exact h1 s hs
      · rcases h3 with h3 | h3
        · exact Or.inl (List.mem_cons_of_mem _ h3)
        · exact Or.inl (List.mem_cons.mpr (Or.inl (Option.some_injective _ h3).symm))
    | some t0 =>
      subst ho
      simp only [Option.map_some, Option.getD_some] at hv h3
      refine ⟨?_, ?_, ?_⟩
      · intro s hs
        rcases List.mem_cons.mp hs with hs | hs
        · exact hs ▸ le_trans (le_max_right _ _) hv
        · exact h1 s hs
      · intro t ht
        have htt : t0 = t := Option.some_injective _ ht
        subst htt
        exact le_trans (le_max_left _ _) hv
      · rcases h3 with h3 | h3
        · exact Or.inl (List.mem_cons_of_mem _ h3)
        · have ha : a = max t0 p.2 := (Option.some_injective _ h3).symm
          rcases max_choice t0 p.2 with hm | hm
          · exact Or.inr (by rw [ha, hm])
          · exact Or.inl (List.mem_cons.mpr (Or.inl (by rw [ha, hm])))

/-- C3: `aggregate_kernel_times` is absent exactly when no kernel has a
valid time range (in particular for the empty list, and never a
zero-width default), and otherwise yields the minimum of the valid
starts paired with the maximum of the valid ends. -/
theorem c3_aggregate_min_max (kernels : List ChromeTraceEvent) (adapter : EventAdapter) :
    (aggregate_kernel_times kernels adapter = none ↔
      kernels.filterMap adapter.get_time_range = [])
    ∧ (∀ a b, aggregate_kernel_times kernels adapter = some (a, b) →
        (a ∈ (kernels.filterMap adapter.get_time_range).map Prod.fst ∧
          ∀ s ∈ (kernels.filterMap adapter.get_time_range).map Prod.fst, a ≤ s) ∧
        (b ∈ (kernels.filterMap adapter.get_time_range).map Prod.snd ∧
          ∀ e ∈ (kernels.filterMap adapter.get_time_range).map Prod.snd, e ≤ b)) := by
  unfold aggregate_kernel_times
  rw [aggregate_fold_split]
  constructor
  · cases hl : kernels.filterMap adapter.get_time_range with
    | nil => simp
    | cons p rest =>
      simp only [List.foldl_cons, Option.map_none', Option.getD_none]
      constructor
      · intro h
        exfalso
        cases hmin : rest.foldl
            (fun o p => some ((o.map (fun t => min t p.1)).getD p.1)) (some p.1) with
        | none => exact minFold_ne_none rest p.1 hmin
        | some a =>
          cases hmax : rest.foldl
              (fun o p => some ((o.map (fun t => max t p.2)).getD p.2)) (some p.2) with
          | none => exact maxFold_ne_none rest p.2 hmax
          | some b => rw [hmin, hmax] at h; exact Option.noConfusion h
      · intro h
        exact List.noConfusion h
  · intro a b h
    cases hmin : kernels.filterMap adapter.get_time_range
        |>.foldl (fun o p => some ((o.map (fun t => min t p.1)).getD p.1)) none with
    | none => rw [hmin] at h; exact absurd h (by simp)
    | some a0 =>
      cases hmax : kernels.filterMap adapter.get_time_range
          |>.foldl (fun o p => some ((o.map (fun t => max t p.2)).getD p.2)) none with
      | none => rw [hmin, hmax] at h; exact absurd h (by simp)
      | some b0 =>
        rw [hmin, hmax] at h
        have hab : a0 = a ∧ b0 = b := by
          have := Option.some_injective _ h
          exact ⟨congrArg Prod.fst this, congrArg Prod.snd this⟩
        obtain ⟨ha, hb⟩ := hab
        subst ha; subst hb
        obtain ⟨m1, -, m3⟩ := minFold_spec _ _ _ hmin
        obtain ⟨x1, -, x3⟩ := maxFold_spec _ _ _ hmax
        refine ⟨⟨?_, m1⟩, ⟨?_, x1⟩⟩
        · rcases m3 with h3 | h3
          · exact h3
          · exact Option.noConfusion h3
        · rcases x3 with h3 | h3
          · exact h3
          · exact Option.noConfusion h3

/-- Kernel event of Scenario 4 with range 100000–150000 ns. -/
def c3Kernel1 : ChromeTraceEvent :=
  ⟨10, [("start_ns", .jint 100000), ("end_ns", .jint 150000)]⟩

/-- Kernel event of Scenario 4 with range 120000–200000 ns. -/
def c3Kernel2 : ChromeTraceEvent :=
  ⟨11, [("start_ns", .jint 120000), ("end_ns", .jint 200000)]⟩

/-- Witness for C3 at Scenario 4: aggregating the two kernels yields
`(100000, 200000)`, and the characterization applies to it. -/
theorem c3_aggregate_min_max_witness :
    (100000 ∈ (([c3Kernel1, c3Kernel2].filterMap
        NsysEventAdapter.get_time_range).map Prod.fst) ∧
      ∀ s ∈ (([c3Kernel1, c3Kernel2].filterMap
        NsysEventAdapter.get_time_range).map Prod.fst), (100000 : Int) ≤ s) ∧
    (200000 ∈ (([c3Kernel1, c3Kernel2].filterMap
        NsysEventAdapter.get_time_range).map Prod.snd) ∧
      ∀ e ∈ (([c3Kernel1, c3Kernel2].filterMap
        NsysEventAdapter.get_time_range).map Prod.snd), e ≤ (200000 : Int)) :=
  (c3_aggregate_min_max [c3Kernel1, c3Kernel2] NsysEventAdapter).2 100000 200000 (by decide)

/-! ### C2: find_kernels_for_annotation concatenates (not unions) buckets -/

theorem find_kernels_fold (adapter : EventAdapter)
    (correlation_map : List (Int × List ChromeTraceEvent))
    (apis : List ChromeTraceEvent) (acc : List ChromeTraceEvent) :
    (apis.foldl
      (fun found_kernels api_event =>
        match adapter.get_correlation_id api_event with
        | some corr_id =>
          match lookupEntry correlation_map corr_id with
          | some kernels =>
            if kernels.isEmpty then found_kernels else found_kernels ++ kernels
          | none => found_kernels
        | none => found_kernels)
      acc) =
    acc ++ apis.flatMap (fun api =>
      match adapter.get_correlation_id api with
      | some c => (lookupEntry correlation_map c).getD []
      | none => []) := by
  induction apis generalizing acc with
  | nil => simp
  | cons api rest ih =>
    simp only [List.foldl_cons, List.flatMap_cons]
    cases hid : adapter.get_correlation_id api with
    | none =>
      simp only [hid]
      rw [ih acc]
      simp
    | some c =>
      cases hl : lookupEntry correlation_map c with
      | none =>
        simp only [hid, hl]
        rw [ih acc]
        simp
      | some kernels =>
        cases hk : kernels.isEmpty with
        | true =>
          have hknil : kernels = [] := by simpa using hk
          simp only [hid, hl, hk, if_true]
          rw [ih acc]
          simp [hknil]
        | false =>
          simp only [hid, hl, hk, Bool.false_eq_true, if_false]
          rw [ih (acc ++ kernels)]
          simp

/-- C2 (amended): `find_kernels_for_annotation` returns the
concatenation, over the API calls in input order, of the kernel buckets
reachable via each API call's correlation identifier; API calls lacking
an identifier, or whose identifier has no matching kernels in the map,
contribute nothing.  (A kernel reachable through several API calls
appears once per reachable bucket occurrence, not at most once.) -/
theorem c2_bucket_concatenation (overlapping_api_events : List ChromeTraceEvent)
    (correlation_map : List (Int × List ChromeTraceEvent)) (adapter : EventAdapter) :
    find_kernels_for_annotation overlapping_api_events correlation_map adapter =
      overlapping_api_events.flatMap (fun api =>
        match adapter.get_correlation_id api with
        | some c => (lookupEntry correlation_map c).getD []
        | none => []) := by
  unfold find_kernels_for_annotation
  rw [find_kernels_fold]
  simp

/-- Kernel used by the C2 counterexample. -/
def c2Kernel : ChromeTraceEvent := ⟨0, []⟩

/-- API event with correlation id 5, used by the C2 counterexample. -/
def c2Api : ChromeTraceEvent := ⟨1, [("correlationId", .jint 5)]⟩

/-- C2 counterexample: with two overlapping API calls carrying the same
correlation identifier, the returned list contains the bucket's kernel
twice — not "as a set of kernels, with each kernel present at most
once". -/
theorem c2_counterexample :
    find_kernels_for_annotation [c2Api, c2Api] [((5 : Int), [c2Kernel])] NsysEventAdapter =
      [c2Kernel, c2Kernel] ∧
    ¬ List.count c2Kernel
        ( find_kernels_for_annotation [c2Api, c2Api] [((5 : Int), [c2Kernel])] NsysEventAdapter)
        ≤ 1 := by
  decide

/-! ### C10: the `as i32` truncation of correlationId -/

theorem i64_as_i32_congr (v1 v2 : Int) (h : (v1 - v2) % 2 ^ 32 = 0) :
    i64_as_i32 v1 = i64_as_i32 v2 := by
  have hmod : v1 % 2 ^ 32 = v2 % 2 ^ 32 := by omega
  simp only [i64_as_i32, hmod]

theorem i64_as_i32_neg (v : Int) (h : 2 ^ 31 ≤ v % 2 ^ 32) :
    i64_as_i32 v < 0 := by
  simp only [i64_as_i32]
  have h1 : v % 2 ^ 32 < 2 ^ 32 := Int.emod_lt_of_pos v (by norm_num)
  split_ifs with hc <;> omega

theorem mem_bucket_build (kernels : List ChromeTraceEvent) (adapter : EventAdapter)
    (k : ChromeTraceEvent) (c : Int)
    (hk : k ∈ kernels) (hc : adapter.get_correlation_id k = some c) :
    MemBucket (build_correlation_map kernels adapter) c k := by
  unfold build_correlation_map
  have hmem : k ∈ kernels.filter (fun k => decide (adapter.get_correlation_id k = some c)) :=
    List.mem_filter.mpr ⟨hk, by simp [hc]⟩
  have hne : kernels.filter (fun k => decide (adapter.get_correlation_id k = some c)) ≠ [] :=
    List.ne_nil_of_mem hmem
  refine ⟨kernels.filter (fun k => decide (adapter.get_correlation_id k = some c)), ?_, hmem⟩
  rw [build_correlation_map_fold]
  simp [lookupEntry_nil, hne]

/-- C10 (amended): `get_correlation_id` reads `correlationId` as a
64-bit integer and truncates it with an `as i32` cast (reduce modulo
`2^32`, reinterpret as signed); events whose raw values differ by a
multiple of `2^32` receive the same identifier and land in the same
`build_correlation_map` bucket; and a value whose residue modulo `2^32`
is at least `2^31` (in particular any raw value in `[2^31, 2^32)`)
surfaces as a negative identifier. -/
theorem c10_truncation_same_bucket (e1 e2 : ChromeTraceEvent) (v1 v2 : Int)
    (h1 : argsGet e1.args ("correlationId") = some (.jint v1))
    (h2 : argsGet e2.args ("correlationId") = some (.jint v2))
    (hb1 : -(2 ^ 63) ≤ v1 ∧ v1 < 2 ^ 63) (hb2 : -(2 ^ 63) ≤ v2 ∧ v2 < 2 ^ 63)
    (hmod : (v1 - v2) % 2 ^ 32 = 0) :
    NsysEventAdapter.get_correlation_id e1 = some (i64_as_i32 v1) ∧
    NsysEventAdapter.get_correlation_id e2 = some (i64_as_i32 v1) ∧
    (∀ kernels : List ChromeTraceEvent, e1 ∈ kernels → e2 ∈ kernels →
      MemBucket (build_correlation_map kernels NsysEventAdapter) (i64_as_i32 v1) e1 ∧
      MemBucket (build_correlation_map kernels NsysEventAdapter) (i64_as_i32 v1) e2) ∧
    (2 ^ 31 ≤ v1 % 2 ^ 32 → i64_as_i32 v1 < 0) := by
  have ha1 : JsonValue.as_i64 (.jint v1) = some v1 := by
    simp only [JsonValue.as_i64]
    rw [if_pos hb1]
  have ha2 : JsonValue.as_i64 (.jint v2) = some v2 := by
    simp only [JsonValue.as_i64]
    rw [if_pos hb2]
  have hco1 : NsysEventAdapter.get_correlation_id e1 = some (i64_as_i32 v1) := by
    simp [NsysEventAdapter, nsysGetCorrelationId, h1, ha1]
  have hco2 : NsysEventAdapter.get_correlation_id e2 = some (i64_as_i32 v1) := by
    simp [NsysEventAdapter, nsysGetCorrelationId, h2, ha2,
      (i64_as_i32_congr v1 v2 hmod).symm]
  refine ⟨hco1, hco2, ?_, i64_as_i32_neg v1⟩
  intro kernels hm1 hm2
  exact ⟨mem_bucket_build kernels NsysEventAdapter e1 (i64_as_i32 v1) hm1 hco1,
    mem_bucket_build kernels NsysEventAdapter e2 (i64_as_i32 v1) hm2 hco2⟩

/-- Event with raw correlationId `2^32`, for the C10 counterexample. -/
def c10Event : ChromeTraceEvent := ⟨2, [("correlationId", .jint 4294967296)]⟩

/-- C10 counterexample: the raw value `2^32` is at least `2^31`, yet
its identifier is `0`, which is not negative — so "a value of `2^31` or
more surfaces as a negative identifier" is false as a universal
statement about raw 64-bit values. -/
theorem c10_counterexample :
    (2 : Int) ^ 31 ≤ 4294967296 ∧
    NsysEventAdapter.get_correlation_id c10Event = some 0 ∧
    ¬ (0 : Int) < 0 := by
  decide

/-- Event with raw correlationId 5, for the C10 witness. -/
def c10E1 : ChromeTraceEvent := ⟨3, [("correlationId", .jint 5)]⟩

/-- Event with raw correlationId `5 + 2^32`, for the C10 witness. -/
def c10E2 : ChromeTraceEvent := ⟨4, [("correlationId", .jint 4294967301)]⟩

/-- Witness for the amended C10 at raw values 5 and `5 + 2^32`. -/
theorem c10_truncation_same_bucket_witness :
    NsysEventAdapter.get_correlation_id c10E1 = some (i64_as_i32 5) ∧
    NsysEventAdapter.get_correlation_id c10E2 = some (i64_as_i32 5) ∧
    MemBucket (build_correlation_map [c10E1, c10E2] NsysEventAdapter) (i64_as_i32 5) c10E1 ∧
    MemBucket (build_correlation_map [c10E1, c10E2] NsysEventAdapter) (i64_as_i32 5) c10E2 := by
  have h := c10_truncation_same_bucket c10E1 c10E2 5 4294967301
    (by decide) (by decide) (by decide) (by decide) (by decide)
  obtain ⟨ha, hb, hc, -⟩ := h
  obtain ⟨hd, he⟩ := hc [c10E1, c10E2] (by simp) (by simp [c10E1, c10E2])
  exact ⟨ha, hb, hd, he⟩

/-! ### C8 and C9: the writer entry points -/

theorem writeLoop_out (ser : ChromeTraceEvent → List Nat)
    (events : List ChromeTraceEvent) (i : Nat) (out : List Nat) :
    writeLoop ser events i out = out ++ writeLoop ser events i [] := by
  induction events generalizing i out with
  | nil => simp [writeLoop]
  | cons e rest ih =>
    simp only [writeLoop]
    rw [ih (i + 1) ((out ++ if i > 0 then commaBytes else []) ++ ser e),
      ih (i + 1) ((([] : List Nat) ++ if i > 0 then commaBytes else []) ++ ser e)]
    simp

theorem writeGzLoop_fed (ser : ChromeTraceEvent → List Nat)
    (events : List ChromeTraceEvent) (i : Nat) (batch fed : List Nat) :
    (writeGzLoop ser events i (batch, fed)).2 ++ (writeGzLoop ser events i (batch, fed)).1 =
      fed ++ writeLoop ser events i batch := by
  induction events generalizing i batch fed with
  | nil => simp [writeGzLoop, writeLoop]
  | cons e rest ih =>
    simp only [writeGzLoop, writeLoop]
    by_cases hlen : (batch ++ (if i > 0 then commaBytes else []) ++ ser e).length ≥ 128 * 1024
    · rw [if_pos hlen, ih,
        writeLoop_out ser rest (i + 1) ((batch ++ if i > 0 then commaBytes else []) ++ ser e)]
      simp
    · rw [if_neg hlen, ih]

/-- C8: the three writer entry points feed the same byte sequence to
their underlying sink — the batched gzip variants (single-threaded and
parallel) emit, through the 128 KiB-threshold buffer, exactly the bytes
the plain `write` emits, so the decompressed gzip content equals the
uncompressed output. -/
theorem c8_writer_feeds_equal (ser : ChromeTraceEvent → List Nat)
    (events : List ChromeTraceEvent) :
    writeGzSingleThreadedFed ser events = writeFed ser events ∧
    writeGzFed ser events = writeFed ser events := by
  have key : ∀ st : List Nat × List Nat,
      st = writeGzLoop ser events 0 (openingBytes, []) →
      (if (st.1 ++ closingBytes).isEmpty then st.2 else st.2 ++ (st.1 ++ closingBytes)) =
        writeLoop ser events 0 openingBytes ++ closingBytes := by
    intro st hst
    have hne : (st.1 ++ closingBytes).isEmpty = false := by
      have : closingBytes ≠ [] := by decide
      cases st.1 <;> simp [closingBytes]
    have hfed := writeGzLoop_fed ser events 0 openingBytes []
    rw [← hst] at hfed
    simp only [List.nil_append] at hfed
    rw [hne]
    simp only [Bool.false_eq_true, if_false]
    rw [← List.append_assoc, hfed]
  constructor
  · unfold writeGzSingleThreadedFed writeFed
    exact key _ rfl
  · unfold writeGzFed writeFed
    exact key _ rfl

/-- The byte sequence the writer contract describes: one JSON object
with the single array field `traceEvents`, holding the comma-separated
serializations of the events in input order. -/
def joinWithComma : List (List Nat) → List Nat
  | [] => []
  | [x] => x
  | x :: xs => x ++ commaBytes ++ joinWithComma xs

/-- The spec-side description of the writer output. -/
def specTraceJson (ser : ChromeTraceEvent → List Nat)
    (events : List ChromeTraceEvent) : List Nat :=
  openingBytes ++ joinWithComma (events.map ser) ++ closingBytes

theorem writeLoop_shift (ser : ChromeTraceEvent → List Nat)
    (events : List ChromeTraceEvent) :
    ∀ i : Nat, 0 < i → writeLoop ser events i [] = writeLoop ser events 1 [] := by
  induction events with
  | nil => intro i h; simp [writeLoop]
  | cons e rest ih =>
    intro i h
    simp only [writeLoop, if_pos h, if_pos Nat.one_pos]
    rw [writeLoop_out ser rest (i + 1), writeLoop_out ser rest (1 + 1),
      ih (i + 1) (Nat.succ_pos i), ih (1 + 1) (by omega)]

theorem writeLoop_one_join (ser : ChromeTraceEvent → List Nat)
    (events : List ChromeTraceEvent) :
    writeLoop ser events 1 [] =
      match events with
      | [] => []
      | _ :: _ => commaBytes ++ joinWithComma (events.map ser) := by
  induction events with
  | nil => simp [writeLoop]
  | cons e rest ih =>
    simp only [writeLoop, if_pos Nat.one_pos, List.nil_append]
    rw [writeLoop_out ser rest (1 + 1), writeLoop_shift ser rest (1 + 1) (by omega), ih]
    cases rest with
    | nil => simp [joinWithComma]
    | cons r rs => simp [joinWithComma]

theorem writeLoop_zero_join (ser : ChromeTraceEvent → List Nat)
    (events : List ChromeTraceEvent) :
    writeLoop ser events 0 [] = joinWithComma (events.map ser) := by
  cases events with
  | nil => simp [writeLoop, joinWithComma]
  | cons e rest =>
    simp only [writeLoop, List.nil_append]
    rw [writeLoop_out ser rest 1, writeLoop_one_join]
    cases rest with
    | nil => simp [joinWithComma, writeLoop]
    | cons r rs => simp [joinWithComma]

/-- C9: `ChromeTraceWriter::write` emits exactly one JSON object whose
single array field `traceEvents` holds the comma-separated
serializations of the events in input order, and for the empty list
emits exactly the bytes of `\x7b"traceEvents":[]\x7d`. -/
theorem c9_write_output_format (ser : ChromeTraceEvent → List Nat)
    (events : List ChromeTraceEvent) :
    writeFed ser events = specTraceJson ser events ∧
    writeFed ser [] = ("\x7b\"traceEvents\":[]\x7d".toList.map Char.toNat) := by
  refine ⟨?_, ?_⟩
  · unfold writeFed specTraceJson
    rw [writeLoop_out, writeLoop_zero_join]
  · rfl

/-! ### Sweep-line machinery: comparator -/

theorem sweepLE_iff (a b : SweepEvent) :
    sweepLE a b = true ↔
      a.timestamp < b.timestamp ∨
      (a.timestamp = b.timestamp ∧
        (b.event_type < a.event_type ∨
          (a.event_type = b.event_type ∧
            (originKey b.origin : Int) ≤ (originKey a.origin : Int)))) := by
  simp only [sweepLE, sweepCmp, intCmp, decide_eq_true_eq]
  split_ifs with h1 h2 h3 h4 h5 h6 h7 h8 <;>
    simp [Ordering.then] <;> omega

theorem sweepLE_total (a b : SweepEvent) : (sweepLE a b || sweepLE b a) = true := by
  cases h : sweepLE a b with
  | true => simp
  | false =>
    have hb : sweepLE b a = true := by
      rw [sweepLE_iff]
      have hn := (sweepLE_iff a b).not.mp (by simp [h])
      push_neg at hn
      omega
    simp [hb]

theorem sweepLE_trans (a b c : SweepEvent) (hab : sweepLE a b = true)
    (hbc : sweepLE b c = true) : sweepLE a c = true := by
  rw [sweepLE_iff] at hab hbc ⊢
  omega

/-! ### Sweep-line machinery: markers -/

theorem mem_markersOf (adapter : EventAdapter) (o : EventOrigin)
    (events : List ChromeTraceEvent) (m : SweepEvent) :
    m ∈ markersOf adapter o events ↔
      ∃ e ∈ events, ∃ s t, adapter.get_time_range e = some (s, t) ∧
        (m = ⟨s, 1, o, e⟩ ∨ m = ⟨t, -1, o, e⟩) := by
  unfold markersOf
  rw [List.mem_flatMap]
  constructor
  · rintro ⟨e, he, hm⟩
    cases hr : adapter.get_time_range e with
    | none => rw [hr] at hm; exact absurd hm (by simp)
    | some p =>
      cases p with
      | mk s t =>
        rw [hr] at hm
        simp only [List.mem_cons, List.mem_singleton] at hm
        rcases hm with hm | hm | hm
        · exact ⟨e, he, s, t, hr, Or.inl hm⟩
        · exact ⟨e, he, s, t, hr, Or.inr hm⟩
        · exact absurd hm (by simp)
  · rintro ⟨e, he, s, t, hr, hm⟩
    refine ⟨e, he, ?_⟩
    rw [hr]
    rcases hm with hm | hm <;> simp [hm]

theorem count_markersOf_start (adapter : EventAdapter) (o : EventOrigin)
    (events : List ChromeTraceEvent) (e : ChromeTraceEvent) (s t : Int)
    (hr : adapter.get_time_range e = some (s, t)) :
    (markersOf adapter o events).count (⟨s, 1, o, e⟩ : SweepEvent) = events.count e := by
  induction events with
  | nil => rfl
  | cons e0 rest ih =>
    unfold markersOf at ih ⊢
    rw [List.flatMap_cons, List.count_append, ih]
    by_cases he0 : e0 = e
    · subst he0
      rw [hr]
      have hne : (⟨s, 1, o, e0⟩ : SweepEvent) ≠ ⟨t, -1, o, e0⟩ := by
        intro h
        injection h with hts hty
        exact absurd hty (by decide)
      rw [List.count_cons_self]
      simp [List.count_cons, hne]
      omega
    · have hne1 : ∀ a b : Int, (⟨s, 1, o, e⟩ : SweepEvent) ≠ ⟨a, b, o, e0⟩ := by
        intro a b h
        injection h with hts hty ho hr2
        exact he0 hr2.symm
      have hcz : ∀ l : List SweepEvent,
          (∀ m ∈ l, ∃ a b, m = (⟨a, b, o, e0⟩ : SweepEvent)) →
          l.count (⟨s, 1, o, e⟩ : SweepEvent) = 0 := by
        intro l hl
        rw [List.count_eq_zero]
        intro hmem
        obtain ⟨a, b, hab⟩ := hl _ hmem
        exact hne1 a b hab
      have hcount0 :
          (match adapter.get_time_range e0 with
            | some p => [(⟨p.1, 1, o, e0⟩ : SweepEvent), ⟨p.2, -1, o, e0⟩]
            | none => ([] : List SweepEvent)).count (⟨s, 1, o, e⟩ : SweepEvent) = 0 := by
        cases hr0 : adapter.get_time_range e0 with
        | none => rfl
        | some p =>
          apply hcz
          intro m hm
          simp only [List.mem_cons, List.mem_singleton] at hm
          rcases hm with hm | hm | hm
          · exact ⟨p.1, 1, hm⟩
          · exact ⟨p.2, -1, hm⟩
          · exact absurd hm (by simp)
      have hstep :
          (match adapter.get_time_range e0 with
            | some (a, b) => [(⟨a, 1, o, e0⟩ : SweepEvent), ⟨b, -1, o, e0⟩]
            | none => ([] : List SweepEvent)) =
          (match adapter.get_time_range e0 with
            | some p => [(⟨p.1, 1, o, e0⟩ : SweepEvent), ⟨p.2, -1, o, e0⟩]
            | none => ([] : List SweepEvent)) := by
        cases adapter.get_time_range e0 with
        | none => rfl
        | some p => rfl
      rw [hstep, hcount0, List.count_cons_of_ne (fun h => he0 h.symm)]
      omega

theorem count_markersOf_end (adapter : EventAdapter) (o : EventOrigin)
    (events : List ChromeTraceEvent) (e : ChromeTraceEvent) (s t : Int)
    (hr : adapter.get_time_range e = some (s, t)) :
    (markersOf adapter o events).count (⟨t, -1, o, e⟩ : SweepEvent) = events.count e := by
  induction events with
  | nil => rfl
  | cons e0 rest ih =>
    unfold markersOf at ih ⊢
    rw [List.flatMap_cons, List.count_append, ih]
    by_cases he0 : e0 = e
    · subst he0
      rw [hr]
      have hne : (⟨t, -1, o, e0⟩ : SweepEvent) ≠ ⟨s, 1, o, e0⟩ := by
        intro h
        injection h with hts hty
        exact absurd hty (by decide)
      simp [List.count_cons, hne]
      omega
    · have hne1 : ∀ a b : Int, (⟨t, -1, o, e⟩ : SweepEvent) ≠ ⟨a, b, o, e0⟩ := by
        intro a b h
        injection h with hts hty ho hr2
        exact he0 hr2.symm
      have hcz : ∀ l : List SweepEvent,
          (∀ m ∈ l, ∃ a b, m = (⟨a, b, o, e0⟩ : SweepEvent)) →
          l.count (⟨t, -1, o, e⟩ : SweepEvent) = 0 := by
        intro l hl
        rw [List.count_eq_zero]
        intro hmem
        obtain ⟨a, b, hab⟩ := hl _ hmem
        exact hne1 a b hab
      have hcount0 :
          (match adapter.get_time_range e0 with
            | some p => [(⟨p.1, 1, o, e0⟩ : SweepEvent), ⟨p.2, -1, o, e0⟩]
            | none => ([] : List SweepEvent)).count (⟨t, -1, o, e⟩ : SweepEvent) = 0 := by
        cases hr0 : adapter.get_time_range e0 with
        | none => rfl
        | some p =>
          apply hcz
          intro m hm
          simp only [List.mem_cons, List.mem_singleton] at hm
          rcases hm with hm | hm | hm
          · exact ⟨p.1, 1, hm⟩
          · exact ⟨p.2, -1, hm⟩
          · exact absurd hm (by simp)
      have hstep :
          (match adapter.get_time_range e0 with
            | some (a, b) => [(⟨a, 1, o, e0⟩ : SweepEvent), ⟨b, -1, o, e0⟩]
            | none => ([] : List SweepEvent)) =
          (match adapter.get_time_range e0 with
            | some p => [(⟨p.1, 1, o, e0⟩ : SweepEvent), ⟨p.2, -1, o, e0⟩]
            | none => ([] : List SweepEvent)) := by
        cases adapter.get_time_range e0 with
        | none => rfl
        | some p => rfl
      rw [hstep, hcount0, List.count_cons_of_ne (fun h => he0 h.symm)]
      omega

/-! ### Sweep-line machinery: the source index map -/

theorem lookupLastIdx_isSome_of_mem (sources : List ChromeTraceEvent)
    (e : ChromeTraceEvent) (he : e ∈ sources) :
    ∃ j, lookupLastIdx sources e.addr = some j := by
  induction sources with
  | nil => exact absurd he (by simp)
  | cons e0 rest ih =>
    unfold lookupLastIdx
    rcases List.mem_cons.mp he with he0 | hrest
    · cases h : lookupLastIdx rest e.addr with
      | some j => exact ⟨j + 1, rfl⟩
      | none => exact ⟨0, by rw [he0, if_pos rfl]⟩
    · obtain ⟨j, hj⟩ := ih hrest
      exact ⟨j + 1, by rw [hj]⟩

theorem lookupLastIdx_spec (sources : List ChromeTraceEvent) (a : Nat) (j : Nat)
    (h : lookupLastIdx sources a = some j) :
    ∃ e, sources.get? j = some e ∧ e.addr = a := by
  induction sources generalizing j with
  | nil => exact absurd h (by simp [lookupLastIdx])
  | cons e0 rest ih =>
    unfold lookupLastIdx at h
    cases h0 : lookupLastIdx rest a with
    | some j0 =>
      rw [h0] at h
      have hj : j = j0 + 1 := (Option.some_injective _ h).symm
      subst hj
      obtain ⟨e, he, ha⟩ := ih j0 h0
      exact ⟨e, by simpa using he, ha⟩
    | none =>
      rw [h0] at h
      by_cases ha : e0.addr = a
      · rw [if_pos ha] at h
        have hj : j = 0 := (Option.some_injective _ h).symm
        subst hj
        exact ⟨e0, rfl, ha⟩
      · rw [if_neg ha] at h
        exact absurd h (by simp)

theorem lookupLastIdx_lt_length (sources : List ChromeTraceEvent) (a : Nat) (j : Nat)
    (h : lookupLastIdx sources a = some j) : j < sources.length := by
  obtain ⟨e, he, -⟩ := lookupLastIdx_spec sources a j h
  exact List.get?_eq_some.mp he |>.1

theorem nodup_addr_inj (sources : List ChromeTraceEvent)
    (hnd : (sources.map (fun e => e.addr)).Nodup)
    (e1 e2 : ChromeTraceEvent) (h1 : e1 ∈ sources) (h2 : e2 ∈ sources)
    (ha : e1.addr = e2.addr) : e1 = e2 := by
  induction sources with
  | nil => exact absurd h1 (by simp)
  | cons e0 rest ih =>
    rw [List.map_cons, List.nodup_cons] at hnd
    rcases List.mem_cons.mp h1 with hx1 | hx1 <;> rcases List.mem_cons.mp h2 with hx2 | hx2
    · rw [hx1, hx2]
    · exfalso
      apply hnd.1
      rw [List.mem_map]
      exact ⟨e2, hx2, by rw [← ha, hx1]⟩
    · exfalso
      apply hnd.1
      rw [List.mem_map]
      exact ⟨e1, hx1, by rw [ha, hx2]⟩
    · exact ih hnd.2 hx1 hx2

theorem lookupLastIdx_get_of_nodup (sources : List ChromeTraceEvent)
    (hnd : (sources.map (fun e => e.addr)).Nodup)
    (src : ChromeTraceEvent) (hm : src ∈ sources) (j : Nat)
    (h : lookupLastIdx sources src.addr = some j) :
    sources.get? j = some src := by
  obtain ⟨e, he, ha⟩ := lookupLastIdx_spec sources src.addr j h
  have hem : e ∈ sources := List.get?_mem he
  rw [he, nodup_addr_inj sources hnd e src hem hm ha]

/-! ### Sweep-line machinery: the active list -/

/-- Number of elements of `l` whose address is `a`. -/
def countAddr (l : List ChromeTraceEvent) (a : Nat) : Nat :=
  (l.filter (fun e => decide (e.addr = a))).length

theorem countAddr_nil (a : Nat) : countAddr [] a = 0 := rfl

theorem countAddr_append (l1 l2 : List ChromeTraceEvent) (a : Nat) :
    countAddr (l1 ++ l2) a = countAddr l1 a + countAddr l2 a := by
  simp [countAddr, List.filter_append]

theorem countAddr_cons (e : ChromeTraceEvent) (l : List ChromeTraceEvent) (a : Nat) :
    countAddr (e :: l) a = (if e.addr = a then 1 else 0) + countAddr l a := by
  by_cases h : e.addr = a <;> simp [countAddr, List.filter_cons, h] <;> omega

theorem countAddr_pos_of_mem (l : List ChromeTraceEvent) (e : ChromeTraceEvent)
    (hm : e ∈ l) (a : Nat) (ha : e.addr = a) : 0 < countAddr l a := by
  induction l with
  | nil => exact absurd hm (by simp)
  | cons e0 rest ih =>
    rw [countAddr_cons]
    rcases List.mem_cons.mp hm with h0 | h0
    · rw [← h0, if_pos ha]; omega
    · have := ih h0; omega

theorem exists_mem_of_countAddr_pos (l : List ChromeTraceEvent) (a : Nat)
    (h : 0 < countAddr l a) : ∃ e ∈ l, e.addr = a := by
  induction l with
  | nil => simp [countAddr_nil] at h
  | cons e0 rest ih =>
    rw [countAddr_cons] at h
    by_cases h0 : e0.addr = a
    · exact ⟨e0, by simp, h0⟩
    · rw [if_neg h0] at h
      obtain ⟨e, he, ha⟩ := ih (by omega)
      exact ⟨e, List.mem_cons_of_mem _ he, ha⟩

theorem not_mem_of_countAddr_zero (l : List ChromeTraceEvent) (e : ChromeTraceEvent)
    (h : countAddr l e.addr = 0) : e ∉ l :=
  fun hm => absurd h (Nat.pos_iff_ne_zero.mp (countAddr_pos_of_mem l e hm e.addr rfl))

theorem mem_removeFirstByAddr (l : List ChromeTraceEvent) (a : Nat)
    (x : ChromeTraceEvent) (h : x ∈ removeFirstByAddr l a) : x ∈ l := by
  induction l with
  | nil => exact absurd h (by simp [removeFirstByAddr])
  | cons e0 rest ih =>
    unfold removeFirstByAddr at h
    by_cases h0 : e0.addr = a
    · rw [if_pos h0] at h
      exact List.mem_cons_of_mem _ h
    · rw [if_neg h0] at h
      rcases List.mem_cons.mp h with hx | hx
      · exact hx ▸ List.mem_cons_self _ _
      · exact List.mem_cons_of_mem _ (ih hx)

theorem countAddr_removeFirstByAddr_self (l : List ChromeTraceEvent) (a : Nat) :
    countAddr (removeFirstByAddr l a) a = countAddr l a - 1 := by
  induction l with
  | nil => rfl
  | cons e0 rest ih =>
    unfold removeFirstByAddr
    by_cases h0 : e0.addr = a
    · rw [if_pos h0, countAddr_cons, if_pos h0]
      omega
    · rw [if_neg h0, countAddr_cons, countAddr_cons, if_neg h0, ih]
      omega

theorem countAddr_removeFirstByAddr_ne (l : List ChromeTraceEvent) (a b : Nat)
    (hab : a ≠ b) : countAddr (removeFirstByAddr l b) a = countAddr l a := by
  induction l with
  | nil => rfl
  | cons e0 rest ih =>
    unfold removeFirstByAddr
    by_cases h0 : e0.addr = b
    · rw [if_pos h0, countAddr_cons, if_neg (by rw [h0]; exact fun h => hab h.symm)]
      omega
    · rw [if_neg h0, countAddr_cons, countAddr_cons, ih]

/-! ### Sweep-line machinery: buckets and keys -/

theorem MemBucket_pushEntry {κ : Type} [DecidableEq κ]
    (m : List (κ × List ChromeTraceEvent)) (k k' : κ) (v x : ChromeTraceEvent) :
    MemBucket (pushEntry m k v) k' x ↔ MemBucket m k' x ∨ (k' = k ∧ x = v) := by
  unfold MemBucket
  rw [lookupEntry_pushEntry]
  by_cases h : k' = k
  · subst h
    cases hl : lookupEntry m k' with
    | none =>
      simp only [if_pos rfl, hl, Option.getD_none, List.nil_append]
      constructor
      · rintro ⟨l, hle, hx⟩
        have hlv : l = [v] := (Option.some_injective _ hle).symm
        subst hlv
        refine Or.inr ⟨by trivial, List.mem_singleton.mp hx⟩
      · rintro (⟨l, hle, hx⟩ | ⟨-, hx⟩)
        · exact absurd hle (by simp)
        · exact ⟨[v], rfl, by simp [hx]⟩
    | some l =>
      simp only [if_pos rfl, hl, Option.getD_some]
      constructor
      · rintro ⟨l2, hle, hx⟩
        have hlv : l2 = l ++ [v] := (Option.some_injective _ hle).symm
        subst hlv
        rcases List.mem_append.mp hx with hx | hx
        · exact Or.inl ⟨l, rfl, hx⟩
        · refine Or.inr ⟨by trivial, List.mem_singleton.mp hx⟩
      · rintro (⟨l2, hle, hx⟩ | ⟨-, hx⟩)
        · have hll : l = l2 := Option.some_injective _ (hl ▸ hle)
          subst hll
          exact ⟨l ++ [v], rfl, List.mem_append.mpr (Or.inl hx)⟩
        · exact ⟨l ++ [v], rfl, List.mem_append.mpr (Or.inr (by simp [hx]))⟩
  · rw [if_neg h]
    simp [h]

theorem KeyIn_pushEntry {κ : Type} [DecidableEq κ]
    (m : List (κ × List ChromeTraceEvent)) (k k' : κ) (v : ChromeTraceEvent) :
    KeyIn (pushEntry m k v) k' ↔ KeyIn m k' ∨ k' = k := by
  unfold KeyIn
  rw [lookupEntry_pushEntry]
  by_cases h : k' = k
  · simp [h]
  · simp [h]

theorem pushEntry_key_cases {κ : Type} [DecidableEq κ]
    (m : List (κ × List ChromeTraceEvent)) (k : κ) (v : ChromeTraceEvent)
    (kv : κ × List ChromeTraceEvent) (h : kv ∈ pushEntry m k v) :
    kv.1 = k ∨ ∃ kv2 ∈ m, kv.1 = kv2.1 := by
  induction m with
  | nil =>
    unfold pushEntry at h
    rcases List.mem_singleton.mp h with h
    exact Or.inl (by rw [h])
  | cons p rest ih =>
    unfold pushEntry at h
    by_cases hp : p.1 = k
    · rw [if_pos hp] at h
      rcases List.mem_cons.mp h with hx | hx
      · exact Or.inl (by rw [hx]; exact hp)
      · exact Or.inr ⟨kv, List.mem_cons_of_mem _ hx, rfl⟩
    · rw [if_neg hp] at h
      rcases List.mem_cons.mp h with hx | hx
      · exact Or.inr ⟨p, List.mem_cons_self _ _, by rw [hx]⟩
      · rcases ih hx with hc | ⟨kv2, hkv2, hk⟩
        · exact Or.inl hc
        · exact Or.inr ⟨kv2, List.mem_cons_of_mem _ hkv2, hk⟩

theorem pushEntry_bucket_cases {κ : Type} [DecidableEq κ]
    (m : List (κ × List ChromeTraceEvent)) (k : κ) (v : ChromeTraceEvent)
    (kv : κ × List ChromeTraceEvent) (h : kv ∈ pushEntry m k v)
    (x : ChromeTraceEvent) (hx : x ∈ kv.2) :
    x = v ∨ ∃ kv2 ∈ m, x ∈ kv2.2 := by
  induction m with
  | nil =>
    unfold pushEntry at h
    rcases List.mem_singleton.mp h with h
    rw [h] at hx
    rcases List.mem_singleton.mp hx with hx
    exact Or.inl hx
  | cons p rest ih =>
    unfold pushEntry at h
    by_cases hp : p.1 = k
    · rw [if_pos hp] at h
      rcases List.mem_cons.mp h with hkv | hkv
      · rw [hkv] at hx
        rcases List.mem_append.mp hx with hx2 | hx2
        · exact Or.inr ⟨p, List.mem_cons_self _ _, hx2⟩
        · exact Or.inl (List.mem_singleton.mp hx2)
      · exact Or.inr ⟨kv, List.mem_cons_of_mem _ hkv, hx⟩
    · rw [if_neg hp] at h
      rcases List.mem_cons.mp h with hkv | hkv
      · exact Or.inr ⟨p, List.mem_cons_self _ _, by rw [← hkv]; exact hx⟩
      · rcases ih hkv with hc | ⟨kv2, hkv2, hxx⟩
        · exact Or.inl hc
        · exact Or.inr ⟨kv2, List.mem_cons_of_mem _ hkv2, hxx⟩

theorem pushEntry_bucket_ne_nil {κ : Type} [DecidableEq κ]
    (m : List (κ × List ChromeTraceEvent)) (k : κ) (v : ChromeTraceEvent)
    (hm : ∀ kv ∈ m, kv.2 ≠ [])
    (kv : κ × List ChromeTraceEvent) (h : kv ∈ pushEntry m k v) : kv.2 ≠ [] := by
  induction m with
  | nil =>
    unfold pushEntry at h
    rcases List.mem_singleton.mp h with h
    rw [h]
    simp
  | cons p rest ih =>
    unfold pushEntry at h
    by_cases hp : p.1 = k
    · rw [if_pos hp] at h
      rcases List.mem_cons.mp h with hkv | hkv
      · rw [hkv]; simp
      · exact hm kv (List.mem_cons_of_mem _ hkv)
    · rw [if_neg hp] at h
      rcases List.mem_cons.mp h with hkv | hkv
      · rw [hkv]; exact hm p (List.mem_cons_self _ _)
      · exact ih (fun kv2 h2 => hm kv2 (List.mem_cons_of_mem _ h2)) hkv

/-! ### Sweep-line machinery: invariants and the target-start fold -/

/-- Provenance of a marker: what membership in `mixedEventsOf` guarantees. -/
def MarkerWf (adapter : EventAdapter) (sources targets : List ChromeTraceEvent)
    (se : SweepEvent) : Prop :=
  ∃ a b, adapter.get_time_range se.event_ref = some (a, b) ∧
    ((se.event_type = 1 ∧ se.timestamp = a) ∨ (se.event_type = -1 ∧ se.timestamp = b)) ∧
    ((se.origin = .Source ∧ se.event_ref ∈ sources) ∨
     (se.origin = .Target ∧ se.event_ref ∈ targets))

theorem markerWf_of_mem_mixed (adapter : EventAdapter)
    (sources targets : List ChromeTraceEvent) (se : SweepEvent)
    (h : se ∈ mixedEventsOf adapter sources targets) :
    MarkerWf adapter sources targets se := by
  unfold mixedEventsOf at h
  rcases List.mem_append.mp h with h | h <;>
    obtain ⟨e, he, s, t, hr, hm⟩ := (mem_markersOf _ _ _ _).mp h
  · rcases hm with hm | hm <;> subst hm
    · exact ⟨s, t, hr, Or.inl ⟨rfl, rfl⟩, Or.inl ⟨rfl, he⟩⟩
    · exact ⟨s, t, hr, Or.inr ⟨rfl, rfl⟩, Or.inl ⟨rfl, he⟩⟩
  · rcases hm with hm | hm <;> subst hm
    · exact ⟨s, t, hr, Or.inl ⟨rfl, rfl⟩, Or.inr ⟨rfl, he⟩⟩
    · exact ⟨s, t, hr, Or.inr ⟨rfl, rfl⟩, Or.inr ⟨rfl, he⟩⟩

/-- State invariant of the sweep loop: active intervals come from the
source list, recorded indices are in bounds, buckets are non-empty with
distinct keys, and every bucket element is a target with a valid range. -/
def StInv (adapter : EventAdapter) (sources targets : List ChromeTraceEvent)
    (st : List ChromeTraceEvent × List (Nat × List ChromeTraceEvent)) : Prop :=
  (∀ e ∈ st.1, e ∈ sources) ∧
  (∀ kv ∈ st.2, kv.1 < sources.length) ∧
  (∀ kv ∈ st.2, kv.2 ≠ []) ∧
  (∀ kv ∈ st.2, ∀ y ∈ kv.2, y ∈ targets ∧ ∃ a b, adapter.get_time_range y = some (a, b)) ∧
  (∀ e ∈ st.1, ∃ a b, adapter.get_time_range e = some (a, b)) ∧
  (∀ kv ∈ st.2, ∃ e2, e2 ∈ sources ∧ (∃ a b, adapter.get_time_range e2 = some (a, b)) ∧
    lookupLastIdx sources e2.addr = some kv.1)

theorem pushEntry_keys_nodup {κ : Type} [DecidableEq κ]
    (m : List (κ × List ChromeTraceEvent)) (k : κ) (v : ChromeTraceEvent)
    (h : (m.map Prod.fst).Nodup) : ((pushEntry m k v).map Prod.fst).Nodup := by
  induction m with
  | nil => simp [pushEntry]
  | cons p rest ih =>
    rw [List.map_cons, List.nodup_cons] at h
    unfold pushEntry
    by_cases hp : p.1 = k
    · rw [if_pos hp, List.map_cons, List.nodup_cons]
      exact h
    · rw [if_neg hp, List.map_cons, List.nodup_cons]
      constructor
      · intro hmem
        obtain ⟨kv, hkv, hk⟩ := List.mem_map.mp hmem
        rcases pushEntry_key_cases rest k v kv hkv with hc | ⟨kv2, hkv2, hk2⟩
        · exact hp (by rw [← hk, hc])
        · exact h.1 (List.mem_map.mpr ⟨kv2, hkv2, by rw [← hk2, hk]⟩)
      · exact ih h.2

theorem foldPush_spec (sources : List ChromeTraceEvent) (x : ChromeTraceEvent)
    (active : List ChromeTraceEvent) (r : List (Nat × List ChromeTraceEvent))
    (hact : ∀ e ∈ active, e ∈ sources) :
    ∃ r2, (active.foldlM
        (fun r source_event =>
          (lookupLastIdx sources source_event.addr).map (fun idx => pushEntry r idx x))
        r) = some r2 ∧
      (∀ k y, MemBucket r2 k y ↔ MemBucket r k y ∨
        (y = x ∧ ∃ e ∈ active, lookupLastIdx sources e.addr = some k)) ∧
      (∀ k, KeyIn r2 k ↔ KeyIn r k ∨ ∃ e ∈ active, lookupLastIdx sources e.addr = some k) ∧
      (∀ kv ∈ r2, (∃ e ∈ active, lookupLastIdx sources e.addr = some kv.1) ∨
        ∃ kv2 ∈ r, kv.1 = kv2.1) ∧
      ((∀ kv ∈ r, kv.2 ≠ []) → ∀ kv ∈ r2, kv.2 ≠ []) ∧
      (∀ kv ∈ r2, ∀ y ∈ kv.2, y = x ∨ ∃ kv2 ∈ r, y ∈ kv2.2) ∧
      ((r.map Prod.fst).Nodup → (r2.map Prod.fst).Nodup) := by
  induction active generalizing r with
  | nil =>
    refine ⟨r, rfl, by simp, by simp, ?_, fun h => h, ?_, fun h => h⟩
    · intro kv hkv
      exact Or.inr ⟨kv, hkv, rfl⟩
    · intro kv hkv y hy
      exact Or.inr ⟨kv, hkv, hy⟩
  | cons e rest ih =>
    obtain ⟨j, hj⟩ := lookupLastIdx_isSome_of_mem sources e (hact e (List.mem_cons_self _ _))
    have hstep : (List.foldlM
        (fun r source_event =>
          (lookupLastIdx sources source_event.addr).map (fun idx => pushEntry r idx x))
        r (e :: rest)) = (List.foldlM
        (fun r source_event =>
          (lookupLastIdx sources source_event.addr).map (fun idx => pushEntry r idx x))
        (pushEntry r j x) rest) := by
      show ((lookupLastIdx sources e.addr).map (fun idx => pushEntry r idx x)).bind _ = _
      rw [hj]
      rfl
    obtain ⟨r2, hr2, hmem, hkey, hprov, hne, helem, hnodup⟩ :=
      ih (pushEntry r j x) (fun e2 h2 => hact e2 (List.mem_cons_of_mem _ h2))
    refine ⟨r2, by rw [hstep]; exact hr2, ?_, ?_, ?_, ?_, ?_, ?_⟩
    · intro k y
      rw [hmem k y, MemBucket_pushEntry]
      constructor
      · rintro ((hb | ⟨hk, hy⟩) | ⟨hy, e2, he2, hl2⟩)
        · exact Or.inl hb
        · exact Or.inr ⟨hy, e, List.mem_cons_self _ _, by rw [hk]; exact hj⟩
        · exact Or.inr ⟨hy, e2, List.mem_cons_of_mem _ he2, hl2⟩
      · rintro (hb | ⟨hy, e2, he2, hl2⟩)
        · exact Or.inl (Or.inl hb)
        · rcases List.mem_cons.mp he2 with he2 | he2
          · subst he2
            have : j = k := Option.some_injective _ (hj ▸ hl2)
            exact Or.inl (Or.inr ⟨this.symm, hy⟩)
          · exact Or.inr ⟨hy, e2, he2, hl2⟩
    · intro k
      rw [hkey k, KeyIn_pushEntry]
      constructor
      · rintro ((hb | hk) | ⟨e2, he2, hl2⟩)
        · exact Or.inl hb
        · exact Or.inr ⟨e, List.mem_cons_self _ _, by rw [hk]; exact hj⟩
        · exact Or.inr ⟨e2, List.mem_cons_of_mem _ he2, hl2⟩
      · rintro (hb | ⟨e2, he2, hl2⟩)
        · exact Or.inl (Or.inl hb)
        · rcases List.mem_cons.mp he2 with he2 | he2
          · subst he2
            have : j = k := Option.some_injective _ (hj ▸ hl2)
            exact Or.inl (Or.inr this.symm)
          · exact Or.inr ⟨e2, he2, hl2⟩
    · intro kv hkv
      rcases hprov kv hkv with ⟨e2, he2, hl2⟩ | ⟨kv2, hkv2, hk2⟩
      · exact Or.inl ⟨e2, List.mem_cons_of_mem _ he2, hl2⟩
      · rcases pushEntry_key_cases r j x kv2 hkv2 with hc | ⟨kv3, hkv3, hk3⟩
        · exact Or.inl ⟨e, List.mem_cons_self _ _, by rw [hk2, hc]; exact hj⟩
        · exact Or.inr ⟨kv3, hkv3, by rw [hk2, hk3]⟩
    · intro hr kv hkv
      exact hne (fun kv2 h2 => pushEntry_bucket_ne_nil r j x hr kv2 h2) kv hkv
    · intro kv hkv y hy
      rcases helem kv hkv y hy with hc | ⟨kv2, hkv2, hy2⟩
      · exact Or.inl hc
      · rcases pushEntry_bucket_cases r j x kv2 hkv2 y hy2 with hc | ⟨kv3, hkv3, hy3⟩
        · exact Or.inl hc
        · exact Or.inr ⟨kv3, hkv3, hy3⟩
    · intro hr
      exact hnodup (pushEntry_keys_nodup r j x hr)

theorem sweepStep_start_source (smap : Nat → Option Nat)
    (st : List ChromeTraceEvent × List (Nat × List ChromeTraceEvent)) (se : SweepEvent)
    (h1 : se.event_type = 1) (h2 : se.origin = EventOrigin.Source) :
    sweepStep smap st se = some (st.1 ++ [se.event_ref], st.2) := by
  unfold sweepStep
  rw [if_pos h1, if_pos h2]

theorem sweepStep_start_target (smap : Nat → Option Nat)
    (st : List ChromeTraceEvent × List (Nat × List ChromeTraceEvent)) (se : SweepEvent)
    (h1 : se.event_type = 1) (h2 : ¬ se.origin = EventOrigin.Source) :
    sweepStep smap st se =
      (st.1.foldlM
        (fun r source_event =>
          (smap source_event.addr).map (fun idx => pushEntry r idx se.event_ref))
        st.2).map (fun r => (st.1, r)) := by
  unfold sweepStep
  rw [if_pos h1, if_neg h2]

theorem sweepStep_end_source (smap : Nat → Option Nat)
    (st : List ChromeTraceEvent × List (Nat × List ChromeTraceEvent)) (se : SweepEvent)
    (h1 : ¬ se.event_type = 1) (h2 : se.origin = EventOrigin.Source) :
    sweepStep smap st se = some (removeFirstByAddr st.1 se.event_ref.addr, st.2) := by
  unfold sweepStep
  rw [if_neg h1, if_pos h2]

theorem sweepStep_end_target (smap : Nat → Option Nat)
    (st : List ChromeTraceEvent × List (Nat × List ChromeTraceEvent)) (se : SweepEvent)
    (h1 : ¬ se.event_type = 1) (h2 : ¬ se.origin = EventOrigin.Source) :
    sweepStep smap st se = some st := by
  unfold sweepStep
  rw [if_neg h1, if_neg h2]

theorem sweepStep_inv (adapter : EventAdapter) (sources targets : List ChromeTraceEvent)
    (se : SweepEvent) (hse : MarkerWf adapter sources targets se)
    (st : List ChromeTraceEvent × List (Nat × List ChromeTraceEvent))
    (hst : StInv adapter sources targets st) :
    ∃ st2, sweepStep (lookupLastIdx sources) st se = some st2 ∧
      StInv adapter sources targets st2 := by
  obtain ⟨hact, hlen, hne, helem, harng, hksrc⟩ := hst
  by_cases h1 : se.event_type = 1 <;> by_cases h2 : se.origin = EventOrigin.Source
  · refine ⟨(st.1 ++ [se.event_ref], st.2), sweepStep_start_source _ _ _ h1 h2,
      ?_, hlen, hne, helem, ?_, hksrc⟩
    · intro e he
      rcases List.mem_append.mp he with he | he
      · exact hact e he
      · obtain ⟨a, b, -, -, ho⟩ := hse
        rcases ho with ⟨-, hm⟩ | ⟨ho, -⟩
        · rw [List.mem_singleton.mp he]; exact hm
        · rw [h2] at ho; exact absurd ho (by simp)
    · intro e he
      rcases List.mem_append.mp he with he | he
      · exact harng e he
      · obtain ⟨a, b, hrse, -, -⟩ := hse
        rw [List.mem_singleton.mp he]
        exact ⟨a, b, hrse⟩
  · obtain ⟨r2, hr2, -, -, hprov2, hne2, helem2, -⟩ :=
      foldPush_spec sources se.event_ref st.1 st.2 hact
    rw [sweepStep_start_target _ _ _ h1 h2, hr2]
    refine ⟨(st.1, r2), rfl, hact, ?_, hne2 hne, ?_, harng, ?_⟩
    · intro kv hkv
      rcases hprov2 kv hkv with ⟨e2, -, hl2⟩ | ⟨kv2, hkv2, hk2⟩
      · exact lookupLastIdx_lt_length sources e2.addr kv.1 hl2
      · rw [hk2]; exact hlen kv2 hkv2
    · intro kv hkv y hy
      rcases helem2 kv hkv y hy with hc | ⟨kv2, hkv2, hy2⟩
      · obtain ⟨a, b, hr, -, ho⟩ := hse
        rcases ho with ⟨ho, -⟩ | ⟨-, hm⟩
        · exact absurd ho h2
        · exact hc ▸ ⟨hm, a, b, hr⟩
      · exact helem kv2 hkv2 y hy2
    · intro kv hkv
      rcases hprov2 kv hkv with ⟨e2, he2, hl2⟩ | ⟨kv2, hkv2, hk2⟩
      · exact ⟨e2, hact e2 he2, harng e2 he2, hl2⟩
      · obtain ⟨e3, he3, hr3, hl3⟩ := hksrc kv2 hkv2
        exact ⟨e3, he3, hr3, by rw [hk2]; exact hl3⟩
  · refine ⟨(removeFirstByAddr st.1 se.event_ref.addr, st.2),
      sweepStep_end_source _ _ _ h1 h2, ?_, hlen, hne, helem, ?_, hksrc⟩
    · intro e he
      exact hact e (mem_removeFirstByAddr _ _ _ he)
    · intro e he
      exact harng e (mem_removeFirstByAddr _ _ _ he)
  · exact ⟨st, sweepStep_end_target _ _ _ h1 h2, hact, hlen, hne, helem, harng, hksrc⟩

theorem sweepFold_inv (adapter : EventAdapter) (sources targets : List ChromeTraceEvent)
    (L : List SweepEvent) (hL : ∀ se ∈ L, MarkerWf adapter sources targets se) :
    ∀ st, StInv adapter sources targets st →
      ∃ st2, L.foldlM (sweepStep (lookupLastIdx sources)) st = some st2 ∧
        StInv adapter sources targets st2 := by
  induction L with
  | nil => exact fun st hst => ⟨st, rfl, hst⟩
  | cons se rest ih =>
    intro st hst
    obtain ⟨stm, hstm, hinvm⟩ :=
      sweepStep_inv adapter sources targets se (hL se (List.mem_cons_self _ _)) st hst
    obtain ⟨st2, hst2, hinv2⟩ :=
      ih (fun se2 h2 => hL se2 (List.mem_cons_of_mem _ h2)) stm hinvm
    refine ⟨st2, ?_, hinv2⟩
    show (sweepStep (lookupLastIdx sources) st se).bind _ = some st2
    rw [hstm]
    exact hst2

theorem foldlM_option_split {σ α : Type} (f : σ → α → Option σ) (A B : List α)
    (st st2 : σ) (h : (A ++ B).foldlM f st = some st2) :
    ∃ stm, A.foldlM f st = some stm ∧ B.foldlM f stm = some st2 := by
  rw [List.foldlM_append] at h
  exact Option.bind_eq_some.mp h

theorem foldlM_option_cons {σ α : Type} (f : σ → α → Option σ) (a : α) (B : List α)
    (st st2 : σ) (h : (a :: B).foldlM f st = some st2) :
    ∃ stm, f st a = some stm ∧ B.foldlM f stm = some st2 := by
  exact Option.bind_eq_some.mp h

theorem foldPush_mono (smap : Nat → Option Nat) (x : ChromeTraceEvent)
    (active : List ChromeTraceEvent) :
    ∀ (r r2 : List (Nat × List ChromeTraceEvent)),
      (active.foldlM
        (fun r source_event =>
          (smap source_event.addr).map (fun idx => pushEntry r idx x))
        r) = some r2 →
      ∀ k y, MemBucket r k y → MemBucket r2 k y := by
  induction active with
  | nil =>
    intro r r2 h k y hb
    have : r = r2 := Option.some_injective _ h
    exact this ▸ hb
  | cons e rest ih =>
    intro r r2 h k y hb
    obtain ⟨rm, hrm, hrest⟩ := foldlM_option_cons _ _ _ _ _ h
    cases hj : smap e.addr with
    | none => rw [hj] at hrm; exact absurd hrm (by simp)
    | some j =>
      rw [hj] at hrm
      have hrm2 : rm = pushEntry r j x := (Option.some_injective _ hrm).symm
      subst hrm2
      exact ih _ _ hrest k y ((MemBucket_pushEntry _ _ _ _ _).mpr (Or.inl hb))

theorem sweepStep_mono (smap : Nat → Option Nat)
    (st st2 : List ChromeTraceEvent × List (Nat × List ChromeTraceEvent)) (se : SweepEvent)
    (h : sweepStep smap st se = some st2) (k : Nat) (y : ChromeTraceEvent)
    (hb : MemBucket st.2 k y) : MemBucket st2.2 k y := by
  by_cases h1 : se.event_type = 1 <;> by_cases h2 : se.origin = EventOrigin.Source
  · rw [sweepStep_start_source _ _ _ h1 h2] at h
    have := Option.some_injective _ h
    rw [← this]
    exact hb
  · rw [sweepStep_start_target _ _ _ h1 h2] at h
    cases hf : st.1.foldlM
        (fun r source_event =>
          (smap source_event.addr).map (fun idx => pushEntry r idx se.event_ref))
        st.2 with
    | none => rw [hf] at h; exact absurd h (by simp)
    | some r2 =>
      rw [hf] at h
      have hst2 : st2 = (st.1, r2) := (Option.some_injective _ h).symm
      subst hst2
      exact foldPush_mono smap se.event_ref st.1 st.2 r2 hf k y hb
  · rw [sweepStep_end_source _ _ _ h1 h2] at h
    have := Option.some_injective _ h
    rw [← this]
    exact hb
  · rw [sweepStep_end_target _ _ _ h1 h2] at h
    have := Option.some_injective _ h
    rw [← this]
    exact hb

theorem sweepFold_mono (smap : Nat → Option Nat) (L : List SweepEvent) :
    ∀ (st st2 : List ChromeTraceEvent × List (Nat × List ChromeTraceEvent)),
      L.foldlM (sweepStep smap) st = some st2 →
      ∀ k y, MemBucket st.2 k y → MemBucket st2.2 k y := by
  induction L with
  | nil =>
    intro st st2 h k y hb
    have : st = st2 := Option.some_injective _ h
    exact this ▸ hb
  | cons se rest ih =>
    intro st st2 h k y hb
    obtain ⟨stm, hstm, hrest⟩ := foldlM_option_cons _ _ _ _ _ h
    exact ih stm st2 hrest k y (sweepStep_mono smap st stm se hstm k y hb)

theorem convFold_some (adapter : EventAdapter) (sources : List ChromeTraceEvent)
    (m : List (Nat × List ChromeTraceEvent)) :
    ∀ acc, (∀ kv ∈ m, kv.1 < sources.length) →
      ∃ res, m.foldlM
        (fun result kv => (sources.get? kv.1).bind
          (fun source_event => some (insertReplace result (adapter.get_event_id source_event) kv.2)))
        acc = some res := by
  induction m with
  | nil => exact fun acc _ => ⟨acc, rfl⟩
  | cons kv rest ih =>
    intro acc hlen
    cases hget : sources.get? kv.1 with
    | none =>
      exfalso
      have := List.get?_eq_none.mp hget
      have := hlen kv (List.mem_cons_self _ _)
      omega
    | some e =>
      obtain ⟨res, hres⟩ :=
        ih (insertReplace acc (adapter.get_event_id e) kv.2)
          (fun kv2 h2 => hlen kv2 (List.mem_cons_of_mem _ h2))
      refine ⟨res, ?_⟩
      show ((sources.get? kv.1).bind _).bind _ = some res
      rw [hget]
      exact hres

/-- C7: `find_overlapping_intervals` is total — the two panic sites
(the `source_index_map[..]` lookup for an active source and the
`source_events[idx]` index in the final conversion), surfaced as
`Option` in the model, always succeed, on every input. -/
theorem c7_no_panic (source_events target_events : List ChromeTraceEvent)
    (adapter : EventAdapter) :
    (find_overlapping_intervals? source_events target_events adapter).isSome = true := by
  unfold find_overlapping_intervals?
  have hwf : ∀ se ∈ (mixedEventsOf adapter source_events target_events).mergeSort sweepLE,
      MarkerWf adapter source_events target_events se := by
    intro se hse
    exact markerWf_of_mem_mixed adapter source_events target_events se
      ((List.mergeSort_perm (mixedEventsOf adapter source_events target_events) sweepLE).mem_iff.mp hse)
  obtain ⟨st2, hst2, hinv⟩ :=
    sweepFold_inv adapter source_events target_events _ hwf ([], [])
      ⟨by simp, by simp, by simp, by simp, by simp, by simp⟩
  rw [hst2, Option.some_bind]
  obtain ⟨res, hres⟩ := convFold_some adapter source_events st2.2 [] hinv.2.1
  rw [hres]
  rfl

theorem lookupEntry_insertReplace_self {κ α : Type} [DecidableEq κ]
    (m : List (κ × α)) (k : κ) (v : α) :
    lookupEntry (insertReplace m k v) k = some v := by
  induction m with
  | nil => simp [insertReplace, lookupEntry_cons]
  | cons p rest ih =>
    unfold insertReplace
    by_cases hp : p.1 = k
    · rw [if_pos hp, lookupEntry_cons, if_pos rfl]
    · rw [if_neg hp, lookupEntry_cons, if_neg hp]
      exact ih

theorem lookupEntry_insertReplace_ne {κ α : Type} [DecidableEq κ]
    (m : List (κ × α)) (k k' : κ) (v : α) (h : ¬ k' = k) :
    lookupEntry (insertReplace m k v) k' = lookupEntry m k' := by
  induction m with
  | nil =>
    simp only [insertReplace, lookupEntry_cons, lookupEntry_nil]
    rw [if_neg (fun hh => h hh.symm)]
  | cons p rest ih =>
    unfold insertReplace
    by_cases hp : p.1 = k
    · rw [if_pos hp, lookupEntry_cons, lookupEntry_cons]
      rw [if_neg (fun hh => h hh.symm), if_neg (by rw [hp]; exact fun hh => h hh.symm)]
    · rw [if_neg hp, lookupEntry_cons, lookupEntry_cons, ih]

/-- Bucket keys of the result map are pairwise distinct. -/
def StInvN (st : List ChromeTraceEvent × List (Nat × List ChromeTraceEvent)) : Prop :=
  (st.2.map Prod.fst).Nodup

theorem sweepStep_invN (adapter : EventAdapter) (sources targets : List ChromeTraceEvent)
    (se : SweepEvent)
    (st st2 : List ChromeTraceEvent × List (Nat × List ChromeTraceEvent))
    (hstA : StInv adapter sources targets st) (hstN : StInvN st)
    (hstep : sweepStep (lookupLastIdx sources) st se = some st2) :
    StInvN st2 := by
  by_cases h1 : se.event_type = 1 <;> by_cases h2 : se.origin = EventOrigin.Source
  · rw [sweepStep_start_source _ _ _ h1 h2] at hstep
    have hst2 : st2 = (st.1 ++ [se.event_ref], st.2) := (Option.some_injective _ hstep).symm
    subst hst2
    exact hstN
  · rw [sweepStep_start_target _ _ _ h1 h2] at hstep
    obtain ⟨r2, hr2, -, -, -, -, -, hnodup2⟩ :=
      foldPush_spec sources se.event_ref st.1 st.2 hstA.1
    rw [hr2] at hstep
    have hst2 : st2 = (st.1, r2) := (Option.some_injective _ hstep).symm
    subst hst2
    exact hnodup2 hstN
  · rw [sweepStep_end_source _ _ _ h1 h2] at hstep
    have hst2 : st2 = (removeFirstByAddr st.1 se.event_ref.addr, st.2) :=
      (Option.some_injective _ hstep).symm
    subst hst2
    exact hstN
  · rw [sweepStep_end_target _ _ _ h1 h2] at hstep
    have hst2 : st2 = st := (Option.some_injective _ hstep).symm
    subst hst2
    exact hstN

theorem sweepFold_invN (adapter : EventAdapter) (sources targets : List ChromeTraceEvent)
    (L : List SweepEvent)
    (hL : ∀ se ∈ L, MarkerWf adapter sources targets se) :
    ∀ st st2, StInv adapter sources targets st → StInvN st →
      L.foldlM (sweepStep (lookupLastIdx sources)) st = some st2 →
      StInv adapter sources targets st2 ∧ StInvN st2 := by
  induction L with
  | nil =>
    intro st st2 hA hN h
    have : st = st2 := Option.some_injective _ h
    exact this ▸ ⟨hA, hN⟩
  | cons se rest ih =>
    intro st st2 hA hN h
    obtain ⟨stm, hstm, hrest⟩ := foldlM_option_cons _ _ _ _ _ h
    have hwf := hL se (List.mem_cons_self _ _)
    obtain ⟨stm2, hstm2, hAm⟩ := sweepStep_inv adapter sources targets se hwf st hA
    have hsame : stm2 = stm := Option.some_injective _ (hstm2 ▸ hstm)
    subst hsame
    have hNm := sweepStep_invN adapter sources targets se st stm2 hA hN hstm
    exact ih (fun se2 hs2 => hL se2 (List.mem_cons_of_mem _ hs2)) stm2 st2 hAm hNm hrest

/-! ### Sweep-line machinery: ordering facts -/

theorem pairwise_split (L A B : List SweepEvent) (y : SweepEvent) (hL : L = A ++ y :: B)
    (hp : L.Pairwise (fun a b => sweepLE a b = true)) :
    (∀ x ∈ A, sweepLE x y = true) ∧ (∀ x ∈ B, sweepLE y x = true) := by
  subst hL
  obtain ⟨-, hcons, hcross⟩ := List.pairwise_append.mp hp
  constructor
  · intro x hx
    exact hcross x hx y (List.mem_cons_self _ _)
  · intro x hx
    exact (List.pairwise_cons.mp hcons).1 x hx

theorem sweepLE_ts_as_tt (tgt src : ChromeTraceEvent) (s1 t1 : Int) (h : s1 ≤ t1) :
    sweepLE ⟨t1, 1, .Target, tgt⟩ ⟨s1, 1, .Source, src⟩ = false := by
  rw [Bool.eq_false_iff]
  intro hc
  rw [sweepLE_iff] at hc
  simp only [originKey] at hc
  omega

theorem sweepLE_se_bef_ts (src tgt : ChromeTraceEvent) (s2 t1 : Int) (h : t1 ≤ s2) :
    sweepLE ⟨s2, -1, .Source, src⟩ ⟨t1, 1, .Target, tgt⟩ = false := by
  rw [Bool.eq_false_iff]
  intro hc
  rw [sweepLE_iff] at hc
  simp only [originKey] at hc
  omega

theorem sweepLE_ts_bef_se (tgt src : ChromeTraceEvent) (s2 t1 : Int) (h : s2 < t1) :
    sweepLE ⟨t1, 1, .Target, tgt⟩ ⟨s2, -1, .Source, src⟩ = false := by
  rw [Bool.eq_false_iff]
  intro hc
  rw [sweepLE_iff] at hc
  simp only [originKey] at hc
  omega

theorem sweepLE_se_bef_ss (src : ChromeTraceEvent) (s1 s2 : Int) (h : s1 ≤ s2) :
    sweepLE ⟨s2, -1, .Source, src⟩ ⟨s1, 1, .Source, src⟩ = false := by
  rw [Bool.eq_false_iff]
  intro hc
  rw [sweepLE_iff] at hc
  simp only [originKey] at hc
  omega

theorem sweepLE_ss_bef_se (src : ChromeTraceEvent) (s1 s2 : Int) (h : s2 < s1) :
    sweepLE ⟨s1, 1, .Source, src⟩ ⟨s2, -1, .Source, src⟩ = false := by
  rw [Bool.eq_false_iff]
  intro hc
  rw [sweepLE_iff] at hc
  simp only [originKey] at hc
  omega

theorem sweepLE_ss_bef_ts (src tgt : ChromeTraceEvent) (s1 t1 : Int) (h : t1 < s1) :
    sweepLE ⟨s1, 1, .Source, src⟩ ⟨t1, 1, .Target, tgt⟩ = false := by
  rw [Bool.eq_false_iff]
  intro hc
  rw [sweepLE_iff] at hc
  simp only [originKey] at hc
  omega

/-! ### Sweep-line machinery: marker classification and uniqueness -/

theorem source_marker_cases (adapter : EventAdapter) (sources targets : List ChromeTraceEvent)
    (hnd : (sources.map (fun e => e.addr)).Nodup)
    (src : ChromeTraceEvent) (hsm : src ∈ sources) (s1 s2 : Int)
    (hr : adapter.get_time_range src = some (s1, s2))
    (se : SweepEvent) (hwf : MarkerWf adapter sources targets se)
    (ho : se.origin = EventOrigin.Source) (ha : se.event_ref.addr = src.addr) :
    se = ⟨s1, 1, .Source, src⟩ ∨ se = ⟨s2, -1, .Source, src⟩ := by
  obtain ⟨a, b, hrse, hty, hor⟩ := hwf
  rcases hor with ⟨-, hmem⟩ | ⟨ho2, -⟩
  · have hes : se.event_ref = src := nodup_addr_inj sources hnd _ _ hmem hsm ha
    rw [hes, hr] at hrse
    have hab : s1 = a ∧ s2 = b := by
      have := Option.some_injective _ hrse
      exact ⟨congrArg Prod.fst this, congrArg Prod.snd this⟩
    obtain ⟨e1, e2⟩ := hab
    rcases hty with ⟨h1, h2⟩ | ⟨h1, h2⟩
    · left
      cases se with
      | mk ts et og er => simp_all
    · right
      cases se with
      | mk ts et og er => simp_all
  · rw [ho] at ho2
    exact absurd ho2 (by simp)

theorem target_start_marker_eq (adapter : EventAdapter) (sources targets : List ChromeTraceEvent)
    (tgt : ChromeTraceEvent) (t1 t2 : Int)
    (htr : adapter.get_time_range tgt = some (t1, t2))
    (se : SweepEvent) (hwf : MarkerWf adapter sources targets se)
    (ho : ¬ se.origin = EventOrigin.Source) (het : se.event_type = 1)
    (hrf : se.event_ref = tgt) :
    se = ⟨t1, 1, .Target, tgt⟩ := by
  obtain ⟨a, b, hrse, hty, -⟩ := hwf
  rw [hrf, htr] at hrse
  have hab : t1 = a ∧ t2 = b := by
    have := Option.some_injective _ hrse
    exact ⟨congrArg Prod.fst this, congrArg Prod.snd this⟩
  have hog : se.origin = EventOrigin.Target := by
    cases hc : se.origin
    · exact absurd hc ho
    · rfl
  rcases hty with ⟨h1, h2⟩ | ⟨h1, h2⟩
  · cases se with
    | mk ts et og er => simp_all
  · rw [h1] at het
    exact absurd het (by decide)

theorem count_markersOf_origin_ne (adapter : EventAdapter) (o : EventOrigin)
    (events : List ChromeTraceEvent) (se : SweepEvent) (ho : se.origin ≠ o) :
    (markersOf adapter o events).count se = 0 := by
  rw [List.count_eq_zero]
  intro hmem
  obtain ⟨e, -, s, t, -, hm⟩ := (mem_markersOf adapter o events se).mp hmem
  rcases hm with hm | hm <;> rw [hm] at ho <;> exact ho rfl

theorem count_sorted_srcStart (adapter : EventAdapter) (sources targets : List ChromeTraceEvent)
    (hnd : (sources.map (fun e => e.addr)).Nodup)
    (src : ChromeTraceEvent) (hsm : src ∈ sources) (s1 s2 : Int)
    (hr : adapter.get_time_range src = some (s1, s2)) :
    ((mixedEventsOf adapter sources targets).mergeSort sweepLE).count
      (⟨s1, 1, .Source, src⟩ : SweepEvent) = 1 := by
  rw [(List.mergeSort_perm (mixedEventsOf adapter sources targets) sweepLE).count_eq]
  unfold mixedEventsOf
  rw [List.count_append, count_markersOf_start adapter .Source sources src s1 s2 hr,
    count_markersOf_origin_ne adapter .Target targets _ (by simp),
    List.count_eq_one_of_mem (hnd.of_map) hsm]

theorem count_sorted_srcEnd (adapter : EventAdapter) (sources targets : List ChromeTraceEvent)
    (hnd : (sources.map (fun e => e.addr)).Nodup)
    (src : ChromeTraceEvent) (hsm : src ∈ sources) (s1 s2 : Int)
    (hr : adapter.get_time_range src = some (s1, s2)) :
    ((mixedEventsOf adapter sources targets).mergeSort sweepLE).count
      (⟨s2, -1, .Source, src⟩ : SweepEvent) = 1 := by
  rw [(List.mergeSort_perm (mixedEventsOf adapter sources targets) sweepLE).count_eq]
  unfold mixedEventsOf
  rw [List.count_append, count_markersOf_end adapter .Source sources src s1 s2 hr,
    count_markersOf_origin_ne adapter .Target targets _ (by simp),
    List.count_eq_one_of_mem (hnd.of_map) hsm]

theorem mem_sorted_srcStart (adapter : EventAdapter) (sources targets : List ChromeTraceEvent)
    (src : ChromeTraceEvent) (hsm : src ∈ sources) (s1 s2 : Int)
    (hr : adapter.get_time_range src = some (s1, s2)) :
    (⟨s1, 1, .Source, src⟩ : SweepEvent) ∈
      (mixedEventsOf adapter sources targets).mergeSort sweepLE := by
  rw [(List.mergeSort_perm (mixedEventsOf adapter sources targets) sweepLE).mem_iff]
  unfold mixedEventsOf
  refine List.mem_append.mpr (Or.inl ?_)
  exact (mem_markersOf adapter .Source sources _).mpr ⟨src, hsm, s1, s2, hr, Or.inl rfl⟩

theorem mem_sorted_srcEnd (adapter : EventAdapter) (sources targets : List ChromeTraceEvent)
    (src : ChromeTraceEvent) (hsm : src ∈ sources) (s1 s2 : Int)
    (hr : adapter.get_time_range src = some (s1, s2)) :
    (⟨s2, -1, .Source, src⟩ : SweepEvent) ∈
      (mixedEventsOf adapter sources targets).mergeSort sweepLE := by
  rw [(List.mergeSort_perm (mixedEventsOf adapter sources targets) sweepLE).mem_iff]
  unfold mixedEventsOf
  refine List.mem_append.mpr (Or.inl ?_)
  exact (mem_markersOf adapter .Source sources _).mpr ⟨src, hsm, s1, s2, hr, Or.inr rfl⟩

theorem mem_sorted_tgtStart (adapter : EventAdapter) (sources targets : List ChromeTraceEvent)
    (tgt : ChromeTraceEvent) (htm : tgt ∈ targets) (t1 t2 : Int)
    (htr : adapter.get_time_range tgt = some (t1, t2)) :
    (⟨t1, 1, .Target, tgt⟩ : SweepEvent) ∈
      (mixedEventsOf adapter sources targets).mergeSort sweepLE := by
  rw [(List.mergeSort_perm (mixedEventsOf adapter sources targets) sweepLE).mem_iff]
  unfold mixedEventsOf
  refine List.mem_append.mpr (Or.inr ?_)
  exact (mem_markersOf adapter .Target targets _).mpr ⟨tgt, htm, t1, t2, htr, Or.inl rfl⟩

theorem notin_of_count_one_split (L A B : List SweepEvent) (m : SweepEvent)
    (hL : L = A ++ m :: B) (hc : L.count m = 1) : m ∉ A ∧ m ∉ B := by
  subst hL
  rw [List.count_append, List.count_cons_self] at hc
  have hA : A.count m = 0 := by omega
  have hB : B.count m = 0 := by omega
  exact ⟨List.count_eq_zero.mp hA, List.count_eq_zero.mp hB⟩

/-! ### Sweep-line machinery: zone lemmas -/

theorem sweepStep_countAddr (adapter : EventAdapter) (sources targets : List ChromeTraceEvent)
    (hnd : (sources.map (fun e => e.addr)).Nodup)
    (src : ChromeTraceEvent) (hsm : src ∈ sources) (s1 s2 : Int)
    (hr : adapter.get_time_range src = some (s1, s2))
    (se : SweepEvent) (hwf : MarkerWf adapter sources targets se)
    (hns : se ≠ ⟨s1, 1, .Source, src⟩) (hne : se ≠ ⟨s2, -1, .Source, src⟩)
    (st st2 : List ChromeTraceEvent × List (Nat × List ChromeTraceEvent))
    (hstep : sweepStep (lookupLastIdx sources) st se = some st2) :
    countAddr st2.1 src.addr = countAddr st.1 src.addr := by
  by_cases h1 : se.event_type = 1 <;> by_cases h2 : se.origin = EventOrigin.Source
  · rw [sweepStep_start_source _ _ _ h1 h2] at hstep
    have hst2 : st2 = (st.1 ++ [se.event_ref], st.2) := (Option.some_injective _ hstep).symm
    subst hst2
    have haddr : ¬ se.event_ref.addr = src.addr := by
      intro heq
      rcases source_marker_cases adapter sources targets hnd src hsm s1 s2 hr se hwf h2 heq
        with hc | hc
      · exact hns hc
      · rw [hc] at h1
        exact absurd h1 (by simp)
    show countAddr (st.1 ++ [se.event_ref]) src.addr = countAddr st.1 src.addr
    rw [countAddr_append, countAddr_cons, if_neg haddr, countAddr_nil]
    omega
  · rw [sweepStep_start_target _ _ _ h1 h2] at hstep
    cases hf : st.1.foldlM
        (fun r source_event =>
          (lookupLastIdx sources source_event.addr).map (fun idx => pushEntry r idx se.event_ref))
        st.2 with
    | none => rw [hf] at hstep; exact absurd hstep (by simp)
    | some r2 =>
      rw [hf] at hstep
      have hst2 : st2 = (st.1, r2) := (Option.some_injective _ hstep).symm
      subst hst2
      rfl
  · rw [sweepStep_end_source _ _ _ h1 h2] at hstep
    have hst2 : st2 = (removeFirstByAddr st.1 se.event_ref.addr, st.2) :=
      (Option.some_injective _ hstep).symm
    subst hst2
    have haddr : ¬ se.event_ref.addr = src.addr := by
      intro heq
      rcases source_marker_cases adapter sources targets hnd src hsm s1 s2 hr se hwf h2 heq
        with hc | hc
      · rw [hc] at h1
        exact absurd (by simp) h1
      · exact hne hc
    exact countAddr_removeFirstByAddr_ne st.1 src.addr se.event_ref.addr
      (fun h => haddr h.symm)
  · rw [sweepStep_end_target _ _ _ h1 h2] at hstep
    have hst2 : st2 = st := (Option.some_injective _ hstep).symm
    subst hst2
    rfl

theorem foldZone_count (adapter : EventAdapter) (sources targets : List ChromeTraceEvent)
    (hnd : (sources.map (fun e => e.addr)).Nodup)
    (src : ChromeTraceEvent) (hsm : src ∈ sources) (s1 s2 : Int)
    (hr : adapter.get_time_range src = some (s1, s2)) :
    ∀ (P : List SweepEvent), (∀ se ∈ P, MarkerWf adapter sources targets se) →
      (⟨s1, 1, .Source, src⟩ : SweepEvent) ∉ P →
      (⟨s2, -1, .Source, src⟩ : SweepEvent) ∉ P →
      ∀ st st2, P.foldlM (sweepStep (lookupLastIdx sources)) st = some st2 →
      countAddr st2.1 src.addr = countAddr st.1 src.addr := by
  intro P
  induction P with
  | nil =>
    intro _ _ _ st st2 h
    have : st = st2 := Option.some_injective _ h
    rw [this]
  | cons se rest ih =>
    intro hwf hns hne st st2 h
    obtain ⟨stm, hstm, hrest⟩ := foldlM_option_cons _ _ _ _ _ h
    rw [ih (fun se2 h2 => hwf se2 (List.mem_cons_of_mem _ h2))
      (fun hmem => hns (List.mem_cons_of_mem _ hmem))
      (fun hmem => hne (List.mem_cons_of_mem _ hmem)) stm st2 hrest]
    exact sweepStep_countAddr adapter sources targets hnd src hsm s1 s2 hr se
      (hwf se (List.mem_cons_self _ _))
      (fun hc => hns (hc ▸ List.mem_cons_self _ _))
      (fun hc => hne (hc ▸ List.mem_cons_self _ _)) st stm hstm

theorem sweepStep_nogain (adapter : EventAdapter) (sources targets : List ChromeTraceEvent)
    (hnd : (sources.map (fun e => e.addr)).Nodup)
    (src : ChromeTraceEvent) (hsm : src ∈ sources) (s1 s2 : Int)
    (hr : adapter.get_time_range src = some (s1, s2)) (idx : Nat)
    (hidx : lookupLastIdx sources src.addr = some idx)
    (se : SweepEvent) (hwf : MarkerWf adapter sources targets se)
    (hns : se ≠ ⟨s1, 1, .Source, src⟩)
    (st st2 : List ChromeTraceEvent × List (Nat × List ChromeTraceEvent))
    (hstep : sweepStep (lookupLastIdx sources) st se = some st2)
    (hcnt : countAddr st.1 src.addr = 0) (hact : ∀ e ∈ st.1, e ∈ sources) :
    countAddr st2.1 src.addr = 0 ∧
    (∀ y, MemBucket st2.2 idx y ↔ MemBucket st.2 idx y) ∧
    (KeyIn st2.2 idx ↔ KeyIn st.2 idx) := by
  by_cases h1 : se.event_type = 1 <;> by_cases h2 : se.origin = EventOrigin.Source
  · rw [sweepStep_start_source _ _ _ h1 h2] at hstep
    have hst2 : st2 = (st.1 ++ [se.event_ref], st.2) := (Option.some_injective _ hstep).symm
    subst hst2
    have haddr : ¬ se.event_ref.addr = src.addr := by
      intro heq
      rcases source_marker_cases adapter sources targets hnd src hsm s1 s2 hr se hwf h2 heq
        with hc | hc
      · exact hns hc
      · rw [hc] at h1
        exact absurd h1 (by simp)
    refine ⟨?_, fun y => Iff.rfl, Iff.rfl⟩
    show countAddr (st.1 ++ [se.event_ref]) src.addr = 0
    rw [countAddr_append, countAddr_cons, if_neg haddr, countAddr_nil, hcnt]
  · rw [sweepStep_start_target _ _ _ h1 h2] at hstep
    obtain ⟨r2, hr2, hmem, hkey, -, -, -, -⟩ :=
      foldPush_spec sources se.event_ref st.1 st.2 hact
    rw [hr2] at hstep
    have hst2 : st2 = (st.1, r2) := (Option.some_injective _ hstep).symm
    subst hst2
    have hnoe : ¬ ∃ e ∈ st.1, lookupLastIdx sources e.addr = some idx := by
      rintro ⟨e2, he2, hl2⟩
      obtain ⟨w, hw, hwa⟩ := lookupLastIdx_spec sources e2.addr idx hl2
      obtain ⟨w2, hw2, hwa2⟩ := lookupLastIdx_spec sources src.addr idx hidx
      have hww : w = w2 := Option.some_injective _ (hw ▸ hw2)
      have : e2.addr = src.addr := by rw [← hwa, hww, hwa2]
      have := countAddr_pos_of_mem st.1 e2 he2 src.addr this
      omega
    refine ⟨hcnt, ?_, ?_⟩
    · intro y
      rw [hmem idx y]
      constructor
      · rintro (hb | ⟨-, e2, he2, hl2⟩)
        · exact hb
        · exact absurd ⟨e2, he2, hl2⟩ hnoe
      · exact Or.inl
    · rw [hkey idx]
      constructor
      · rintro (hb | ⟨e2, he2, hl2⟩)
        · exact hb
        · exact absurd ⟨e2, he2, hl2⟩ hnoe
      · exact Or.inl
  · rw [sweepStep_end_source _ _ _ h1 h2] at hstep
    have hst2 : st2 = (removeFirstByAddr st.1 se.event_ref.addr, st.2) :=
      (Option.some_injective _ hstep).symm
    subst hst2
    refine ⟨?_, fun y => Iff.rfl, Iff.rfl⟩
    by_cases haddr : se.event_ref.addr = src.addr
    · show countAddr (removeFirstByAddr st.1 se.event_ref.addr) src.addr = 0
      rw [haddr, countAddr_removeFirstByAddr_self, hcnt]
    · show countAddr (removeFirstByAddr st.1 se.event_ref.addr) src.addr = 0
      rw [countAddr_removeFirstByAddr_ne st.1 src.addr se.event_ref.addr
        (fun h => haddr h.symm), hcnt]
  · rw [sweepStep_end_target _ _ _ h1 h2] at hstep
    have hst2 : st2 = st := (Option.some_injective _ hstep).symm
    subst hst2
    exact ⟨hcnt, fun y => Iff.rfl, Iff.rfl⟩

theorem foldZone_nogain (adapter : EventAdapter) (sources targets : List ChromeTraceEvent)
    (hnd : (sources.map (fun e => e.addr)).Nodup)
    (src : ChromeTraceEvent) (hsm : src ∈ sources) (s1 s2 : Int)
    (hr : adapter.get_time_range src = some (s1, s2)) (idx : Nat)
    (hidx : lookupLastIdx sources src.addr = some idx) :
    ∀ (P : List SweepEvent), (∀ se ∈ P, MarkerWf adapter sources targets se) →
      (⟨s1, 1, .Source, src⟩ : SweepEvent) ∉ P →
      ∀ st st2, StInv adapter sources targets st →
        P.foldlM (sweepStep (lookupLastIdx sources)) st = some st2 →
        countAddr st.1 src.addr = 0 →
        countAddr st2.1 src.addr = 0 ∧
        (∀ y, MemBucket st2.2 idx y ↔ MemBucket st.2 idx y) ∧
        (KeyIn st2.2 idx ↔ KeyIn st.2 idx) := by
  intro P
  induction P with
  | nil =>
    intro _ _ st st2 _ h hcnt
    have : st = st2 := Option.some_injective _ h
    subst this
    exact ⟨hcnt, fun y => Iff.rfl, Iff.rfl⟩
  | cons se rest ih =>
    intro hwf hns st st2 hinv h hcnt
    obtain ⟨stm, hstm, hrest⟩ := foldlM_option_cons _ _ _ _ _ h
    have hwfse := hwf se (List.mem_cons_self _ _)
    obtain ⟨hc1, hm1, hk1⟩ :=
      sweepStep_nogain adapter sources targets hnd src hsm s1 s2 hr idx hidx se hwfse
        (fun hc => hns (hc ▸ List.mem_cons_self _ _)) st stm hstm hcnt hinv.1
    obtain ⟨stm2, hstm2, hinvm⟩ := sweepStep_inv adapter sources targets se hwfse st hinv
    have hsame : stm2 = stm := Option.some_injective _ (hstm2 ▸ hstm)
    subst hsame
    obtain ⟨hc2, hm2, hk2⟩ :=
      ih (fun se2 h2 => hwf se2 (List.mem_cons_of_mem _ h2))
        (fun hmem => hns (List.mem_cons_of_mem _ hmem)) stm2 st2 hinvm hrest hc1
    exact ⟨hc2, fun y => (hm2 y).trans (hm1 y), hk2.trans hk1⟩

theorem foldPush_ne_mem (smap : Nat → Option Nat) (x : ChromeTraceEvent)
    (active : List ChromeTraceEvent) :
    ∀ (r r2 : List (Nat × List ChromeTraceEvent)),
      (active.foldlM
        (fun r source_event =>
          (smap source_event.addr).map (fun idx => pushEntry r idx x))
        r) = some r2 →
      ∀ k y, y ≠ x → (MemBucket r2 k y ↔ MemBucket r k y) := by
  induction active with
  | nil =>
    intro r r2 h k y hy
    have : r = r2 := Option.some_injective _ h
    rw [this]
  | cons e rest ih =>
    intro r r2 h k y hy
    obtain ⟨rm, hrm, hrest⟩ := foldlM_option_cons _ _ _ _ _ h
    cases hj : smap e.addr with
    | none => rw [hj] at hrm; exact absurd hrm (by simp)
    | some j =>
      rw [hj] at hrm
      have hrm2 : rm = pushEntry r j x := (Option.some_injective _ hrm).symm
      subst hrm2
      rw [ih _ _ hrest k y hy, MemBucket_pushEntry]
      constructor
      · rintro (hb | ⟨-, hyx⟩)
        · exact hb
        · exact absurd hyx hy
      · exact Or.inl

theorem sweepStep_notgt (adapter : EventAdapter) (sources targets : List ChromeTraceEvent)
    (tgt : ChromeTraceEvent) (t1 t2 : Int)
    (htr : adapter.get_time_range tgt = some (t1, t2)) (idx : Nat)
    (se : SweepEvent) (hwf : MarkerWf adapter sources targets se)
    (hnt : se ≠ ⟨t1, 1, .Target, tgt⟩)
    (st st2 : List ChromeTraceEvent × List (Nat × List ChromeTraceEvent))
    (hstep : sweepStep (lookupLastIdx sources) st se = some st2) :
    MemBucket st2.2 idx tgt ↔ MemBucket st.2 idx tgt := by
  by_cases h1 : se.event_type = 1 <;> by_cases h2 : se.origin = EventOrigin.Source
  · rw [sweepStep_start_source _ _ _ h1 h2] at hstep
    have hst2 : st2 = (st.1 ++ [se.event_ref], st.2) := (Option.some_injective _ hstep).symm
    rw [hst2]
  · rw [sweepStep_start_target _ _ _ h1 h2] at hstep
    cases hf : st.1.foldlM
        (fun r source_event =>
          (lookupLastIdx sources source_event.addr).map (fun idx => pushEntry r idx se.event_ref))
        st.2 with
    | none => rw [hf] at hstep; exact absurd hstep (by simp)
    | some r2 =>
      rw [hf] at hstep
      have hst2 : st2 = (st.1, r2) := (Option.some_injective _ hstep).symm
      subst hst2
      have htne : tgt ≠ se.event_ref := by
        intro hc
        exact hnt (target_start_marker_eq adapter sources targets tgt t1 t2 htr se hwf h2 h1
          hc.symm)
      exact foldPush_ne_mem (lookupLastIdx sources) se.event_ref st.1 st.2 r2 hf idx tgt htne
  · rw [sweepStep_end_source _ _ _ h1 h2] at hstep
    have hst2 : st2 = (removeFirstByAddr st.1 se.event_ref.addr, st.2) :=
      (Option.some_injective _ hstep).symm
    rw [hst2]
  · rw [sweepStep_end_target _ _ _ h1 h2] at hstep
    have hst2 : st2 = st := (Option.some_injective _ hstep).symm
    rw [hst2]

theorem foldZone_notgt (adapter : EventAdapter) (sources targets : List ChromeTraceEvent)
    (tgt : ChromeTraceEvent) (t1 t2 : Int)
    (htr : adapter.get_time_range tgt = some (t1, t2)) (idx : Nat) :
    ∀ (P : List SweepEvent), (∀ se ∈ P, MarkerWf adapter sources targets se) →
      (⟨t1, 1, .Target, tgt⟩ : SweepEvent) ∉ P →
      ∀ st st2, P.foldlM (sweepStep (lookupLastIdx sources)) st = some st2 →
      (MemBucket st2.2 idx tgt ↔ MemBucket st.2 idx tgt) := by
  intro P
  induction P with
  | nil =>
    intro _ _ st st2 h
    have : st = st2 := Option.some_injective _ h
    rw [this]
  | cons se rest ih =>
    intro hwf hnt st st2 h
    obtain ⟨stm, hstm, hrest⟩ := foldlM_option_cons _ _ _ _ _ h
    rw [ih (fun se2 h2 => hwf se2 (List.mem_cons_of_mem _ h2))
      (fun hmem => hnt (List.mem_cons_of_mem _ hmem)) stm st2 hrest]
    exact sweepStep_notgt adapter sources targets tgt t1 t2 htr idx se
      (hwf se (List.mem_cons_self _ _))
      (fun hc => hnt (hc ▸ List.mem_cons_self _ _)) st stm hstm

theorem src_mem_active (sources : List ChromeTraceEvent)
    (hnd : (sources.map (fun e => e.addr)).Nodup)
    (src : ChromeTraceEvent) (hsm : src ∈ sources)
    (l : List ChromeTraceEvent) (hact : ∀ e ∈ l, e ∈ sources)
    (hcnt : 0 < countAddr l src.addr) : src ∈ l := by
  obtain ⟨e, he, ha⟩ := exists_mem_of_countAddr_pos l src.addr hcnt
  have : e = src := nodup_addr_inj sources hnd e src (hact e he) hsm ha
  exact this ▸ he

theorem sweepStep_write (sources : List ChromeTraceEvent) (se : SweepEvent)
    (h1 : se.event_type = 1) (h2 : ¬ se.origin = EventOrigin.Source)
    (st st2 : List ChromeTraceEvent × List (Nat × List ChromeTraceEvent))
    (hstep : sweepStep (lookupLastIdx sources) st se = some st2)
    (src : ChromeTraceEvent) (hsrc : src ∈ st.1) (idx : Nat)
    (hidx : lookupLastIdx sources src.addr = some idx)
    (hact : ∀ e ∈ st.1, e ∈ sources) :
    MemBucket st2.2 idx se.event_ref := by
  rw [sweepStep_start_target _ _ _ h1 h2] at hstep
  obtain ⟨r2, hr2, hmem, -, -, -, -, -⟩ :=
    foldPush_spec sources se.event_ref st.1 st.2 hact
  rw [hr2] at hstep
  have hst2 : st2 = (st.1, r2) := (Option.some_injective _ hstep).symm
  subst hst2
  exact (hmem idx se.event_ref).mpr (Or.inr ⟨rfl, src, hsrc, hidx⟩)

theorem MemBucket_nil {κ : Type} [DecidableEq κ] (k : κ) (x : ChromeTraceEvent) :
    ¬ MemBucket ([] : List (κ × List ChromeTraceEvent)) k x := by
  rintro ⟨l, hl, -⟩
  rw [lookupEntry_nil] at hl
  exact Option.noConfusion hl

theorem sweep_res_pos (adapter : EventAdapter) (sources targets : List ChromeTraceEvent)
    (hnd : (sources.map (fun e => e.addr)).Nodup)
    (src : ChromeTraceEvent) (hsm : src ∈ sources) (s1 s2 : Int)
    (hr : adapter.get_time_range src = some (s1, s2))
    (idx : Nat) (hidx : lookupLastIdx sources src.addr = some idx)
    (tgt : ChromeTraceEvent) (htm : tgt ∈ targets) (t1 t2 : Int)
    (htr : adapter.get_time_range tgt = some (t1, t2))
    (st2 : List ChromeTraceEvent × List (Nat × List ChromeTraceEvent))
    (hfold : ((mixedEventsOf adapter sources targets).mergeSort sweepLE).foldlM
        (sweepStep (lookupLastIdx sources)) ([], []) = some st2)
    (hc1 : s1 ≤ t1) (hc2 : s1 ≤ s2 → t1 ≤ s2) :
    MemBucket st2.2 idx tgt := by
  have hwfL : ∀ se ∈ (mixedEventsOf adapter sources targets).mergeSort sweepLE,
      MarkerWf adapter sources targets se := fun se hse =>
    markerWf_of_mem_mixed adapter sources targets se
      ((List.mergeSort_perm (mixedEventsOf adapter sources targets) sweepLE).mem_iff.mp hse)
  have hpair := List.sorted_mergeSort sweepLE_trans sweepLE_total
    (mixedEventsOf adapter sources targets)
  have hmemS := mem_sorted_srcStart adapter sources targets src hsm s1 s2 hr
  have hmemE := mem_sorted_srcEnd adapter sources targets src hsm s1 s2 hr
  have hmemT := mem_sorted_tgtStart adapter sources targets tgt htm t1 t2 htr
  have hcntS := count_sorted_srcStart adapter sources targets hnd src hsm s1 s2 hr
  have hinv0 : StInv adapter sources targets (([], []) :
      List ChromeTraceEvent × List (Nat × List ChromeTraceEvent)) :=
    ⟨by simp, by simp, by simp, by simp, by simp, by simp⟩
  obtain ⟨X, Y, hXY⟩ := List.append_of_mem hmemT
  obtain ⟨hbefore, hafter⟩ := pairwise_split _ X Y _ hXY hpair
  have hssX : (⟨s1, 1, .Source, src⟩ : SweepEvent) ∈ X := by
    rw [hXY] at hmemS
    rcases List.mem_append.mp hmemS with h | h
    · exact h
    · rcases List.mem_cons.mp h with h | h
      · exact absurd h (by simp)
      · have hle := hafter _ h
        rw [sweepLE_ts_as_tt tgt src s1 t1 hc1] at hle
        exact Bool.noConfusion hle
  by_cases hori : s1 ≤ s2
  · -- source interval is well oriented: srcStart … tgtStart … srcEnd
    have ht1s2 : t1 ≤ s2 := hc2 hori
    have hseX : (⟨s2, -1, .Source, src⟩ : SweepEvent) ∉ X := by
      intro hmem
      have hle := hbefore _ hmem
      rw [sweepLE_se_bef_ts src tgt s2 t1 ht1s2] at hle
      exact Bool.noConfusion hle
    obtain ⟨X1, X2, hX12⟩ := List.append_of_mem hssX
    have hL2 : (mixedEventsOf adapter sources targets).mergeSort sweepLE =
        X1 ++ (⟨s1, 1, .Source, src⟩ : SweepEvent) :: (X2 ++ (⟨t1, 1, .Target, tgt⟩ : SweepEvent) :: Y) := by
      rw [hXY, hX12]
      simp
    obtain ⟨hnS1, hnS2⟩ := notin_of_count_one_split _ X1 _ _ hL2 hcntS
    have hnE1 : (⟨s2, -1, .Source, src⟩ : SweepEvent) ∉ X1 := by
      intro h; exact hseX (by rw [hX12]; exact List.mem_append.mpr (Or.inl h))
    have hnE2 : (⟨s2, -1, .Source, src⟩ : SweepEvent) ∉ X2 := by
      intro h
      exact hseX (by rw [hX12]; exact List.mem_append.mpr (Or.inr (List.mem_cons_of_mem _ h)))
    rw [hL2] at hfold
    obtain ⟨stA, hfoldX1, hrest1⟩ := foldlM_option_split _ X1 _ _ _ hfold
    obtain ⟨stB, hstepS, hrest2⟩ := foldlM_option_cons _ _ _ _ _ hrest1
    obtain ⟨stC, hfoldX2, hrest3⟩ := foldlM_option_split _ X2 _ _ _ hrest2
    obtain ⟨stD, hstepT, hfoldY⟩ := foldlM_option_cons _ _ _ _ _ hrest3
    have hwfX1 : ∀ se ∈ X1, MarkerWf adapter sources targets se := fun se hse =>
      hwfL se (by rw [hL2]; exact List.mem_append.mpr (Or.inl hse))
    have hwfX2 : ∀ se ∈ X2, MarkerWf adapter sources targets se := fun se hse =>
      hwfL se (by
        rw [hL2]
        exact List.mem_append.mpr (Or.inr (List.mem_cons_of_mem _
          (List.mem_append.mpr (Or.inl hse)))))
    obtain ⟨stA2, hfoldA2, hinvA⟩ := sweepFold_inv adapter sources targets X1 hwfX1 _ hinv0
    have heqA : stA2 = stA := Option.some_injective _ (hfoldA2.symm.trans hfoldX1)
    rw [heqA] at hinvA
    have hcntA : countAddr stA.1 src.addr = 0 := by
      rw [foldZone_count adapter sources targets hnd src hsm s1 s2 hr X1 hwfX1 hnS1 hnE1
        _ stA hfoldX1]
      rfl
    rw [sweepStep_start_source _ _ _ rfl rfl] at hstepS
    have hstB : stB = (stA.1 ++ [src], stA.2) := (Option.some_injective _ hstepS).symm
    subst hstB
    have hinvB : StInv adapter sources targets (stA.1 ++ [src], stA.2) := by
      obtain ⟨ha, hb, hc, hd, he5, hf6⟩ := hinvA
      refine ⟨?_, hb, hc, hd, ?_, hf6⟩
      · intro e he
        rcases List.mem_append.mp he with he | he
        · exact ha e he
        · rw [List.mem_singleton.mp he]; exact hsm
      · intro e he
        rcases List.mem_append.mp he with he | he
        · exact he5 e he
        · rw [List.mem_singleton.mp he]; exact ⟨s1, s2, hr⟩
    have hcntB : countAddr (stA.1 ++ [src]) src.addr = 1 := by
      rw [countAddr_append, countAddr_cons, if_pos rfl, countAddr_nil, hcntA]
    obtain ⟨stC2, hfoldC2, hinvC⟩ := sweepFold_inv adapter sources targets X2 hwfX2 _ hinvB
    have heqC : stC2 = stC := Option.some_injective _ (hfoldC2.symm.trans hfoldX2)
    rw [heqC] at hinvC
    have hcntC : countAddr stC.1 src.addr = 1 := by
      rw [foldZone_count adapter sources targets hnd src hsm s1 s2 hr X2 hwfX2
        (fun h => hnS2 (List.mem_append.mpr (Or.inl h))) hnE2 _ stC hfoldX2]
      exact hcntB
    have hsrcC : src ∈ stC.1 :=
      src_mem_active sources hnd src hsm stC.1 hinvC.1 (by omega)
    have hwrite : MemBucket stD.2 idx tgt :=
      sweepStep_write sources _ rfl (fun h => EventOrigin.noConfusion h) stC stD hstepT src hsrcC idx hidx hinvC.1
    exact sweepFold_mono _ Y stD st2 hfoldY idx tgt hwrite
  · -- inverted source interval: srcEnd … srcStart … tgtStart
    have hs2s1 : s2 < s1 := by omega
    have hcntE := count_sorted_srcEnd adapter sources targets hnd src hsm s1 s2 hr
    have hseX : (⟨s2, -1, .Source, src⟩ : SweepEvent) ∈ X := by
      rw [hXY] at hmemE
      rcases List.mem_append.mp hmemE with h | h
      · exact h
      · rcases List.mem_cons.mp h with h | h
        · exact absurd h (by simp)
        · have hle := hafter _ h
          rw [sweepLE_ts_bef_se tgt src s2 t1 (by omega)] at hle
          exact Bool.noConfusion hle
    obtain ⟨A, B, hAB⟩ := List.append_of_mem hseX
    have hpairX : X.Pairwise (fun a b => sweepLE a b = true) := by
      rw [hXY] at hpair
      exact (List.pairwise_append.mp hpair).1
    obtain ⟨hbefX, haftX⟩ := pairwise_split X A B _ hAB hpairX
    have hssB : (⟨s1, 1, .Source, src⟩ : SweepEvent) ∈ B := by
      rw [hAB] at hssX
      rcases List.mem_append.mp hssX with h | h
      · have hle := hbefX _ h
        rw [sweepLE_ss_bef_se src s1 s2 hs2s1] at hle
        exact Bool.noConfusion hle
      · rcases List.mem_cons.mp h with h | h
        · exact absurd h (by simp)
        · exact h
    obtain ⟨B1, B2, hB12⟩ := List.append_of_mem hssB
    have hL2 : (mixedEventsOf adapter sources targets).mergeSort sweepLE =
        A ++ (⟨s2, -1, .Source, src⟩ : SweepEvent) ::
          (B1 ++ (⟨s1, 1, .Source, src⟩ : SweepEvent) ::
            (B2 ++ (⟨t1, 1, .Target, tgt⟩ : SweepEvent) :: Y)) := by
      rw [hXY, hAB, hB12]
      simp
    have hLS : (mixedEventsOf adapter sources targets).mergeSort sweepLE =
        (A ++ (⟨s2, -1, .Source, src⟩ : SweepEvent) :: B1) ++
          (⟨s1, 1, .Source, src⟩ : SweepEvent) ::
            (B2 ++ (⟨t1, 1, .Target, tgt⟩ : SweepEvent) :: Y) := by
      rw [hL2]
      simp
    obtain ⟨hnS1, hnS2⟩ := notin_of_count_one_split _ _ _ _ hLS hcntS
    obtain ⟨hnEA, hnErest⟩ := notin_of_count_one_split _ A
      (B1 ++ (⟨s1, 1, .Source, src⟩ : SweepEvent) ::
        (B2 ++ (⟨t1, 1, .Target, tgt⟩ : SweepEvent) :: Y)) _ hL2 hcntE
    have hnSA : (⟨s1, 1, .Source, src⟩ : SweepEvent) ∉ A := fun h =>
      hnS1 (List.mem_append.mpr (Or.inl h))
    have hnSB1 : (⟨s1, 1, .Source, src⟩ : SweepEvent) ∉ B1 := fun h =>
      hnS1 (List.mem_append.mpr (Or.inr (List.mem_cons_of_mem _ h)))
    have hnEB1 : (⟨s2, -1, .Source, src⟩ : SweepEvent) ∉ B1 := fun h =>
      hnErest (List.mem_append.mpr (Or.inl h))
    have hnSB2 : (⟨s1, 1, .Source, src⟩ : SweepEvent) ∉ B2 := fun h =>
      hnS2 (List.mem_append.mpr (Or.inl h))
    have hnEB2 : (⟨s2, -1, .Source, src⟩ : SweepEvent) ∉ B2 := fun h =>
      hnErest (List.mem_append.mpr (Or.inr (List.mem_cons_of_mem _
        (List.mem_append.mpr (Or.inl h)))))
    rw [hL2] at hfold
    obtain ⟨stA, hfoldA, hrest1⟩ := foldlM_option_split _ A _ _ _ hfold
    obtain ⟨stB, hstepE, hrest2⟩ := foldlM_option_cons _ _ _ _ _ hrest1
    obtain ⟨stC, hfoldB1, hrest3⟩ := foldlM_option_split _ B1 _ _ _ hrest2
    obtain ⟨stD, hstepS, hrest4⟩ := foldlM_option_cons _ _ _ _ _ hrest3
    obtain ⟨stE, hfoldB2, hrest5⟩ := foldlM_option_split _ B2 _ _ _ hrest4
    obtain ⟨stF, hstepT, hfoldY⟩ := foldlM_option_cons _ _ _ _ _ hrest5
    have hwfA : ∀ se ∈ A, MarkerWf adapter sources targets se := fun se hse =>
      hwfL se (by rw [hL2]; exact List.mem_append.mpr (Or.inl hse))
    have hwfB1 : ∀ se ∈ B1, MarkerWf adapter sources targets se := fun se hse =>
      hwfL se (by
        rw [hL2]
        exact List.mem_append.mpr (Or.inr (List.mem_cons_of_mem _
          (List.mem_append.mpr (Or.inl hse)))))
    have hwfB2 : ∀ se ∈ B2, MarkerWf adapter sources targets se := fun se hse =>
      hwfL se (by
        rw [hL2]
        exact List.mem_append.mpr (Or.inr (List.mem_cons_of_mem _
          (List.mem_append.mpr (Or.inr (List.mem_cons_of_mem _
            (List.mem_append.mpr (Or.inl hse))))))))
    obtain ⟨stA2, hfoldA2, hinvA⟩ := sweepFold_inv adapter sources targets A hwfA _ hinv0
    have heqA : stA2 = stA := Option.some_injective _ (hfoldA2.symm.trans hfoldA)
    rw [heqA] at hinvA
    have hcntA : countAddr stA.1 src.addr = 0 := by
      rw [foldZone_count adapter sources targets hnd src hsm s1 s2 hr A hwfA hnSA hnEA
        _ stA hfoldA]
      rfl
    rw [sweepStep_end_source _ _ _ (by simp) rfl] at hstepE
    have hstB : stB = (removeFirstByAddr stA.1 src.addr, stA.2) :=
      (Option.some_injective _ hstepE).symm
    subst hstB
    have hinvB : StInv adapter sources targets (removeFirstByAddr stA.1 src.addr, stA.2) := by
      obtain ⟨ha, hb, hc, hd, he5, hf6⟩ := hinvA
      exact ⟨fun e he => ha e (mem_removeFirstByAddr _ _ _ he), hb, hc, hd,
        fun e he => he5 e (mem_removeFirstByAddr _ _ _ he), hf6⟩
    have hcntB : countAddr (removeFirstByAddr stA.1 src.addr) src.addr = 0 := by
      rw [countAddr_removeFirstByAddr_self, hcntA]
    obtain ⟨stC2, hfoldC2, hinvC⟩ := sweepFold_inv adapter sources targets B1 hwfB1 _ hinvB
    have heqC : stC2 = stC := Option.some_injective _ (hfoldC2.symm.trans hfoldB1)
    rw [heqC] at hinvC
    have hcntC : countAddr stC.1 src.addr = 0 := by
      rw [foldZone_count adapter sources targets hnd src hsm s1 s2 hr B1 hwfB1 hnSB1 hnEB1
        _ stC hfoldB1]
      exact hcntB
    rw [sweepStep_start_source _ _ _ rfl rfl] at hstepS
    have hstD : stD = (stC.1 ++ [src], stC.2) := (Option.some_injective _ hstepS).symm
    subst hstD
    have hinvD : StInv adapter sources targets (stC.1 ++ [src], stC.2) := by
      obtain ⟨ha, hb, hc, hd, he5, hf6⟩ := hinvC
      refine ⟨?_, hb, hc, hd, ?_, hf6⟩
      · intro e he
        rcases List.mem_append.mp he with he | he
        · exact ha e he
        · rw [List.mem_singleton.mp he]; exact hsm
      · intro e he
        rcases List.mem_append.mp he with he | he
        · exact he5 e he
        · rw [List.mem_singleton.mp he]; exact ⟨s1, s2, hr⟩
    have hcntD : countAddr (stC.1 ++ [src]) src.addr = 1 := by
      rw [countAddr_append, countAddr_cons, if_pos rfl, countAddr_nil, hcntC]
    obtain ⟨stE2, hfoldE2, hinvE⟩ := sweepFold_inv adapter sources targets B2 hwfB2 _ hinvD
    have heqE : stE2 = stE := Option.some_injective _ (hfoldE2.symm.trans hfoldB2)
    rw [heqE] at hinvE
    have hcntE2 : countAddr stE.1 src.addr = 1 := by
      rw [foldZone_count adapter sources targets hnd src hsm s1 s2 hr B2 hwfB2 hnSB2 hnEB2
        _ stE hfoldB2]
      exact hcntD
    have hsrcE : src ∈ stE.1 :=
      src_mem_active sources hnd src hsm stE.1 hinvE.1 (by omega)
    have hwrite : MemBucket stF.2 idx tgt :=
      sweepStep_write sources _ rfl (fun h => EventOrigin.noConfusion h) stE stF hstepT src hsrcE idx hidx hinvE.1
    exact sweepFold_mono _ Y stF st2 hfoldY idx tgt hwrite

theorem sweep_res_neg (adapter : EventAdapter) (sources targets : List ChromeTraceEvent)
    (hnd : (sources.map (fun e => e.addr)).Nodup)
    (src : ChromeTraceEvent) (hsm : src ∈ sources) (s1 s2 : Int)
    (hr : adapter.get_time_range src = some (s1, s2))
    (idx : Nat) (hidx : lookupLastIdx sources src.addr = some idx)
    (tgt : ChromeTraceEvent) (htm : tgt ∈ targets) (t1 t2 : Int)
    (htr : adapter.get_time_range tgt = some (t1, t2))
    (st2 : List ChromeTraceEvent × List (Nat × List ChromeTraceEvent))
    (hfold : ((mixedEventsOf adapter sources targets).mergeSort sweepLE).foldlM
        (sweepStep (lookupLastIdx sources)) ([], []) = some st2)
    (hc : ¬ (s1 ≤ t1 ∧ (s1 ≤ s2 → t1 ≤ s2))) :
    ¬ MemBucket st2.2 idx tgt := by
  have hwfL : ∀ se ∈ (mixedEventsOf adapter sources targets).mergeSort sweepLE,
      MarkerWf adapter sources targets se := fun se hse =>
    markerWf_of_mem_mixed adapter sources targets se
      ((List.mergeSort_perm (mixedEventsOf adapter sources targets) sweepLE).mem_iff.mp hse)
  have hpair := List.sorted_mergeSort sweepLE_trans sweepLE_total
    (mixedEventsOf adapter sources targets)
  have hmemS := mem_sorted_srcStart adapter sources targets src hsm s1 s2 hr
  have hmemE := mem_sorted_srcEnd adapter sources targets src hsm s1 s2 hr
  have hcntS := count_sorted_srcStart adapter sources targets hnd src hsm s1 s2 hr
  have hcntE := count_sorted_srcEnd adapter sources targets hnd src hsm s1 s2 hr
  have hinv0 : StInv adapter sources targets (([], []) :
      List ChromeTraceEvent × List (Nat × List ChromeTraceEvent)) :=
    ⟨by simp, by simp, by simp, by simp, by simp, by simp⟩
  by_cases ht : t1 < s1
  · -- the target starts strictly before the source start marker
    obtain ⟨X, Y, hXY⟩ := List.append_of_mem hmemS
    obtain ⟨hnSX, hnSY⟩ := notin_of_count_one_split _ X Y _ hXY hcntS
    obtain ⟨-, hafter⟩ := pairwise_split _ X Y _ hXY hpair
    have hTnotY : (⟨t1, 1, .Target, tgt⟩ : SweepEvent) ∉ Y := by
      intro h
      have hle := hafter _ h
      rw [sweepLE_ss_bef_ts src tgt s1 t1 ht] at hle
      exact Bool.noConfusion hle
    rw [hXY] at hfold
    obtain ⟨stA, hfoldX, hrest1⟩ := foldlM_option_split _ X _ _ _ hfold
    obtain ⟨stB, hstepS, hfoldY⟩ := foldlM_option_cons _ _ _ _ _ hrest1
    have hwfX : ∀ se ∈ X, MarkerWf adapter sources targets se := fun se hse =>
      hwfL se (by rw [hXY]; exact List.mem_append.mpr (Or.inl hse))
    have hwfY : ∀ se ∈ Y, MarkerWf adapter sources targets se := fun se hse =>
      hwfL se (by rw [hXY]; exact List.mem_append.mpr (Or.inr (List.mem_cons_of_mem _ hse)))
    obtain ⟨hcntA, hmemA, -⟩ :=
      foldZone_nogain adapter sources targets hnd src hsm s1 s2 hr idx hidx X hwfX hnSX
        _ stA hinv0 hfoldX rfl
    have hnoA : ¬ MemBucket stA.2 idx tgt := fun h =>
      MemBucket_nil idx tgt ((hmemA tgt).mp h)
    rw [sweepStep_start_source _ _ _ rfl rfl] at hstepS
    have hstB : stB = (stA.1 ++ [src], stA.2) := (Option.some_injective _ hstepS).symm
    subst hstB
    have hiffY := foldZone_notgt adapter sources targets tgt t1 t2 htr idx Y hwfY hTnotY
      _ st2 hfoldY
    intro hmem
    exact hnoA (hiffY.mp hmem)
  · -- the source is well oriented and ends strictly before the target starts
    have hs1t1 : s1 ≤ t1 := by omega
    push_neg at hc
    obtain ⟨hq, hs2t1⟩ := hc hs1t1
    obtain ⟨X, Y, hXY⟩ := List.append_of_mem hmemE
    obtain ⟨hnEX, hnEY⟩ := notin_of_count_one_split _ X Y _ hXY hcntE
    obtain ⟨hbefore, hafter⟩ := pairwise_split _ X Y _ hXY hpair
    have hTnotX : (⟨t1, 1, .Target, tgt⟩ : SweepEvent) ∉ X := by
      intro h
      have hle := hbefore _ h
      rw [sweepLE_ts_bef_se tgt src s2 t1 hs2t1] at hle
      exact Bool.noConfusion hle
    have hSinX : (⟨s1, 1, .Source, src⟩ : SweepEvent) ∈ X := by
      rw [hXY] at hmemS
      rcases List.mem_append.mp hmemS with h | h
      · exact h
      · rcases List.mem_cons.mp h with h | h
        · exact absurd h (by simp)
        · have hle := hafter _ h
          rw [sweepLE_se_bef_ss src s1 s2 hq] at hle
          exact Bool.noConfusion hle
    obtain ⟨X1, X2, hX12⟩ := List.append_of_mem hSinX
    have hL2 : (mixedEventsOf adapter sources targets).mergeSort sweepLE =
        X1 ++ (⟨s1, 1, .Source, src⟩ : SweepEvent) ::
          (X2 ++ (⟨s2, -1, .Source, src⟩ : SweepEvent) :: Y) := by
      rw [hXY, hX12]
      simp
    obtain ⟨hnS1, hnS2⟩ := notin_of_count_one_split _ X1 _ _ hL2 hcntS
    have hnSX2 : (⟨s1, 1, .Source, src⟩ : SweepEvent) ∉ X2 := fun h =>
      hnS2 (List.mem_append.mpr (Or.inl h))
    have hnSY : (⟨s1, 1, .Source, src⟩ : SweepEvent) ∉ Y := fun h =>
      hnS2 (List.mem_append.mpr (Or.inr (List.mem_cons_of_mem _ h)))
    have hnEX1 : (⟨s2, -1, .Source, src⟩ : SweepEvent) ∉ X1 := fun h =>
      hnEX (by rw [hX12]; exact List.mem_append.mpr (Or.inl h))
    have hnEX2 : (⟨s2, -1, .Source, src⟩ : SweepEvent) ∉ X2 := fun h =>
      hnEX (by rw [hX12]; exact List.mem_append.mpr (Or.inr (List.mem_cons_of_mem _ h)))
    have hTnotX1 : (⟨t1, 1, .Target, tgt⟩ : SweepEvent) ∉ X1 := fun h =>
      hTnotX (by rw [hX12]; exact List.mem_append.mpr (Or.inl h))
    have hTnotX2 : (⟨t1, 1, .Target, tgt⟩ : SweepEvent) ∉ X2 := fun h =>
      hTnotX (by rw [hX12]; exact List.mem_append.mpr (Or.inr (List.mem_cons_of_mem _ h)))
    rw [hL2] at hfold
    obtain ⟨stA, hfoldX1, hrest1⟩ := foldlM_option_split _ X1 _ _ _ hfold
    obtain ⟨stB, hstepS, hrest2⟩ := foldlM_option_cons _ _ _ _ _ hrest1
    obtain ⟨stC, hfoldX2, hrest3⟩ := foldlM_option_split _ X2 _ _ _ hrest2
    obtain ⟨stD, hstepE, hfoldY⟩ := foldlM_option_cons _ _ _ _ _ hrest3
    have hwfX1 : ∀ se ∈ X1, MarkerWf adapter sources targets se := fun se hse =>
      hwfL se (by rw [hL2]; exact List.mem_append.mpr (Or.inl hse))
    have hwfX2 : ∀ se ∈ X2, MarkerWf adapter sources targets se := fun se hse =>
      hwfL se (by
        rw [hL2]
        exact List.mem_append.mpr (Or.inr (List.mem_cons_of_mem _
          (List.mem_append.mpr (Or.inl hse)))))
    have hwfY : ∀ se ∈ Y, MarkerWf adapter sources targets se := fun se hse =>
      hwfL se (by
        rw [hL2]
        exact List.mem_append.mpr (Or.inr (List.mem_cons_of_mem _
          (List.mem_append.mpr (Or.inr (List.mem_cons_of_mem _ hse))))))
    obtain ⟨stA2, hfoldA2, hinvA⟩ := sweepFold_inv adapter sources targets X1 hwfX1 _ hinv0
    have heqA : stA2 = stA := Option.some_injective _ (hfoldA2.symm.trans hfoldX1)
    rw [heqA] at hinvA
    have hcntA : countAddr stA.1 src.addr = 0 := by
      rw [foldZone_count adapter sources targets hnd src hsm s1 s2 hr X1 hwfX1 hnS1 hnEX1
        _ stA hfoldX1]
      rfl
    have hnoA : ¬ MemBucket stA.2 idx tgt := by
      intro h
      have hiff := foldZone_notgt adapter sources targets tgt t1 t2 htr idx X1 hwfX1
        hTnotX1 _ stA hfoldX1
      exact MemBucket_nil idx tgt (hiff.mp h)
    rw [sweepStep_start_source _ _ _ rfl rfl] at hstepS
    have hstB : stB = (stA.1 ++ [src], stA.2) := (Option.some_injective _ hstepS).symm
    subst hstB
    have hinvB : StInv adapter sources targets (stA.1 ++ [src], stA.2) := by
      obtain ⟨ha, hb, hcc, hd, he5, hf6⟩ := hinvA
      refine ⟨?_, hb, hcc, hd, ?_, hf6⟩
      · intro e he
        rcases List.mem_append.mp he with he | he
        · exact ha e he
        · rw [List.mem_singleton.mp he]; exact hsm
      · intro e he
        rcases List.mem_append.mp he with he | he
        · exact he5 e he
        · rw [List.mem_singleton.mp he]; exact ⟨s1, s2, hr⟩
    have hcntB : countAddr (stA.1 ++ [src]) src.addr = 1 := by
      rw [countAddr_append, countAddr_cons, if_pos rfl, countAddr_nil, hcntA]
    obtain ⟨stC2, hfoldC2, hinvC⟩ := sweepFold_inv adapter sources targets X2 hwfX2 _ hinvB
    have heqC : stC2 = stC := Option.some_injective _ (hfoldC2.symm.trans hfoldX2)
    rw [heqC] at hinvC
    have hcntC : countAddr stC.1 src.addr = 1 := by
      rw [foldZone_count adapter sources targets hnd src hsm s1 s2 hr X2 hwfX2 hnSX2 hnEX2
        _ stC hfoldX2]
      exact hcntB
    have hnoC : ¬ MemBucket stC.2 idx tgt := by
      intro h
      have hiff := foldZone_notgt adapter sources targets tgt t1 t2 htr idx X2 hwfX2
        hTnotX2 _ stC hfoldX2
      exact hnoA (hiff.mp h)
    rw [sweepStep_end_source _ _ _ (by simp) rfl] at hstepE
    have hstD : stD = (removeFirstByAddr stC.1 src.addr, stC.2) :=
      (Option.some_injective _ hstepE).symm
    subst hstD
    have hinvD : StInv adapter sources targets (removeFirstByAddr stC.1 src.addr, stC.2) := by
      obtain ⟨ha, hb, hcc, hd, he5, hf6⟩ := hinvC
      exact ⟨fun e he => ha e (mem_removeFirstByAddr _ _ _ he), hb, hcc, hd,
        fun e he => he5 e (mem_removeFirstByAddr _ _ _ he), hf6⟩
    have hcntD : countAddr (removeFirstByAddr stC.1 src.addr) src.addr = 0 := by
      rw [countAddr_removeFirstByAddr_self, hcntC]
    obtain ⟨-, hmemY, -⟩ :=
      foldZone_nogain adapter sources targets hnd src hsm s1 s2 hr idx hidx Y hwfY hnSY
        _ st2 hinvD hfoldY hcntD
    intro hmem
    exact hnoC ((hmemY tgt).mp hmem)

theorem sweep_res_char (adapter : EventAdapter) (sources targets : List ChromeTraceEvent)
    (hnd : (sources.map (fun e => e.addr)).Nodup)
    (src : ChromeTraceEvent) (hsm : src ∈ sources) (s1 s2 : Int)
    (hr : adapter.get_time_range src = some (s1, s2))
    (idx : Nat) (hidx : lookupLastIdx sources src.addr = some idx)
    (tgt : ChromeTraceEvent) (htm : tgt ∈ targets) (t1 t2 : Int)
    (htr : adapter.get_time_range tgt = some (t1, t2))
    (st2 : List ChromeTraceEvent × List (Nat × List ChromeTraceEvent))
    (hfold : ((mixedEventsOf adapter sources targets).mergeSort sweepLE).foldlM
        (sweepStep (lookupLastIdx sources)) ([], []) = some st2) :
    MemBucket st2.2 idx tgt ↔ (s1 ≤ t1 ∧ (s1 ≤ s2 → t1 ≤ s2)) := by
  by_cases hcond : s1 ≤ t1 ∧ (s1 ≤ s2 → t1 ≤ s2)
  · exact iff_of_true
      (sweep_res_pos adapter sources targets hnd src hsm s1 s2 hr idx hidx tgt htm t1 t2 htr
        st2 hfold hcond.1 hcond.2) hcond
  · exact iff_of_false
      (sweep_res_neg adapter sources targets hnd src hsm s1 s2 hr idx hidx tgt htm t1 t2 htr
        st2 hfold hcond) hcond

/-! ### The final conversion to the identifier-keyed map -/

theorem lookupEntry_mem {κ α : Type} [DecidableEq κ] (m : List (κ × α)) (k : κ) (v : α)
    (h : lookupEntry m k = some v) : (k, v) ∈ m := by
  unfold lookupEntry at h
  cases hf : m.find? (fun p => decide (p.1 = k)) with
  | none => rw [hf] at h; exact absurd h (by simp)
  | some p =>
    rw [hf] at h
    have hp2 : p.2 = v := by simpa using h
    have hp1 : p.1 = k := by
      have := List.find?_some hf
      simpa using this
    have hmem := List.mem_of_find?_eq_some hf
    rw [← hp1, ← hp2]
    exact hmem

theorem lookupEntry_of_mem_nodup {κ α : Type} [DecidableEq κ] (m : List (κ × α))
    (hnd : (m.map Prod.fst).Nodup) (kv : κ × α) (h : kv ∈ m) :
    lookupEntry m kv.1 = some kv.2 := by
  induction m with
  | nil => exact absurd h (by simp)
  | cons p rest ih =>
    rw [List.map_cons, List.nodup_cons] at hnd
    rcases List.mem_cons.mp h with h | h
    · rw [h, lookupEntry_cons, if_pos rfl]
    · have hp : ¬ p.1 = kv.1 := by
        intro hc
        exact hnd.1 (List.mem_map.mpr ⟨kv, h, hc.symm⟩)
      rw [lookupEntry_cons, if_neg hp]
      exact ih hnd.2 h

theorem insertReplace_mem_cases {κ α : Type} [DecidableEq κ] (m : List (κ × α))
    (k : κ) (v : α) (kv : κ × α) (h : kv ∈ insertReplace m k v) :
    kv = (k, v) ∨ kv ∈ m := by
  induction m with
  | nil =>
    unfold insertReplace at h
    exact Or.inl (List.mem_singleton.mp h)
  | cons p rest ih =>
    unfold insertReplace at h
    by_cases hp : p.1 = k
    · rw [if_pos hp] at h
      rcases List.mem_cons.mp h with h | h
      · exact Or.inl h
      · exact Or.inr (List.mem_cons_of_mem _ h)
    · rw [if_neg hp] at h
      rcases List.mem_cons.mp h with h | h
      · exact Or.inr (h ▸ List.mem_cons_self _ _)
      · rcases ih h with h | h
        · exact Or.inl h
        · exact Or.inr (List.mem_cons_of_mem _ h)

theorem convFold_entries (adapter : EventAdapter) (sources : List ChromeTraceEvent) :
    ∀ (res : List (Nat × List ChromeTraceEvent)) (acc result : List (Nat × List ChromeTraceEvent)),
      res.foldlM
        (fun result kv => (sources.get? kv.1).bind
          (fun source_event => some (insertReplace result (adapter.get_event_id source_event) kv.2)))
        acc = some result →
      ∀ kv ∈ result, kv ∈ acc ∨
        ∃ kv2 ∈ res, ∃ e, sources.get? kv2.1 = some e ∧
          kv.1 = adapter.get_event_id e ∧ kv.2 = kv2.2 := by
  intro res
  induction res with
  | nil =>
    intro acc result h kv hkv
    have : acc = result := Option.some_injective _ h
    exact Or.inl (this ▸ hkv)
  | cons kv0 rest ih =>
    intro acc result h kv hkv
    obtain ⟨accm, hstep, hrest⟩ := foldlM_option_cons _ _ _ _ _ h
    cases hget : sources.get? kv0.1 with
    | none => rw [hget] at hstep; exact absurd hstep (by simp)
    | some e =>
      rw [hget] at hstep
      have haccm : accm = insertReplace acc (adapter.get_event_id e) kv0.2 :=
        (Option.some_injective _ hstep).symm
      subst haccm
      rcases ih _ result hrest kv hkv with hin | ⟨kv2, hkv2, e2, hget2, hk2, hv2⟩
      · rcases insertReplace_mem_cases acc (adapter.get_event_id e) kv0.2 kv hin with hc | hc
        · exact Or.inr ⟨kv0, List.mem_cons_self _ _, e, hget,
            by rw [hc], by rw [hc]⟩
        · exact Or.inl hc
      · exact Or.inr ⟨kv2, List.mem_cons_of_mem _ hkv2, e2, hget2, hk2, hv2⟩

theorem convFold_preserve (adapter : EventAdapter) (sources : List ChromeTraceEvent) (K : Nat) :
    ∀ (res : List (Nat × List ChromeTraceEvent)) (acc result : List (Nat × List ChromeTraceEvent)),
      res.foldlM
        (fun result kv => (sources.get? kv.1).bind
          (fun source_event => some (insertReplace result (adapter.get_event_id source_event) kv.2)))
        acc = some result →
      (∀ kv ∈ res, ∀ e, sources.get? kv.1 = some e → adapter.get_event_id e ≠ K) →
      lookupEntry result K = lookupEntry acc K := by
  intro res
  induction res with
  | nil =>
    intro acc result h _
    have : acc = result := Option.some_injective _ h
    rw [this]
  | cons kv0 rest ih =>
    intro acc result h hno
    obtain ⟨accm, hstep, hrest⟩ := foldlM_option_cons _ _ _ _ _ h
    cases hget : sources.get? kv0.1 with
    | none => rw [hget] at hstep; exact absurd hstep (by simp)
    | some e =>
      rw [hget] at hstep
      have haccm : accm = insertReplace acc (adapter.get_event_id e) kv0.2 :=
        (Option.some_injective _ hstep).symm
      subst haccm
      rw [ih _ result hrest (fun kv2 h2 => hno kv2 (List.mem_cons_of_mem _ h2)),
        lookupEntry_insertReplace_ne]
      exact fun hc => hno kv0 (List.mem_cons_self _ _) e hget hc.symm

theorem convFold_lookup (adapter : EventAdapter) (sources : List ChromeTraceEvent)
    (src : ChromeTraceEvent) (idx : Nat) :
    ∀ (res : List (Nat × List ChromeTraceEvent)) (acc result : List (Nat × List ChromeTraceEvent)),
      res.foldlM
        (fun result kv => (sources.get? kv.1).bind
          (fun source_event => some (insertReplace result (adapter.get_event_id source_event) kv.2)))
        acc = some result →
      (res.map Prod.fst).Nodup →
      (∀ kv ∈ res, ∀ e, sources.get? kv.1 = some e →
        adapter.get_event_id e = adapter.get_event_id src → kv.1 = idx) →
      sources.get? idx = some src →
      lookupEntry acc (adapter.get_event_id src) = none →
      lookupEntry result (adapter.get_event_id src) = lookupEntry res idx := by
  intro res
  induction res with
  | nil =>
    intro acc result h _ _ _ hacc
    have : acc = result := Option.some_injective _ h
    rw [← this, hacc, lookupEntry_nil]
  | cons kv0 rest ih =>
    intro acc result h hknd huniq hget hacc
    rw [List.map_cons, List.nodup_cons] at hknd
    obtain ⟨accm, hstep, hrest⟩ := foldlM_option_cons _ _ _ _ _ h
    cases hge : sources.get? kv0.1 with
    | none => rw [hge] at hstep; exact absurd hstep (by simp)
    | some e =>
      rw [hge] at hstep
      have haccm : accm = insertReplace acc (adapter.get_event_id e) kv0.2 :=
        (Option.some_injective _ hstep).symm
      subst haccm
      by_cases hk : kv0.1 = idx
      · have hes : e = src := by
          rw [hk] at hge
          exact Option.some_injective _ (hge.symm.trans hget)
        subst hes
        have hpres : lookupEntry result (adapter.get_event_id e) =
            lookupEntry (insertReplace acc (adapter.get_event_id e) kv0.2)
              (adapter.get_event_id e) := by
          refine convFold_preserve adapter sources (adapter.get_event_id e) rest _ result
            hrest ?_
          intro kv2 h2 e2 hge2 hc
          have hki : kv2.1 = idx := huniq kv2 (List.mem_cons_of_mem _ h2) e2 hge2 hc
          exact hknd.1 (List.mem_map.mpr ⟨kv2, h2, by rw [hki, hk]⟩)
        rw [hpres, lookupEntry_insertReplace_self, lookupEntry_cons, if_pos hk]
      · have hne : adapter.get_event_id e ≠ adapter.get_event_id src := by
          intro hc
          exact hk (huniq kv0 (List.mem_cons_self _ _) e hge hc)
        rw [ih _ result hrest hknd.2
          (fun kv2 h2 => huniq kv2 (List.mem_cons_of_mem _ h2)) hget
          (by rw [lookupEntry_insertReplace_ne _ _ _ _ (fun hc => hne hc.symm)]; exact hacc),
          lookupEntry_cons, if_neg hk]

theorem findOverlap_unfold (source_events target_events : List ChromeTraceEvent)
    (adapter : EventAdapter) :
    ∃ st2 result,
      ((mixedEventsOf adapter source_events target_events).mergeSort sweepLE).foldlM
        (sweepStep (lookupLastIdx source_events)) ([], []) = some st2 ∧
      st2.2.foldlM
        (fun result kv => (source_events.get? kv.1).bind
          (fun source_event => some (insertReplace result (adapter.get_event_id source_event) kv.2)))
        [] = some result ∧
      find_overlapping_intervals source_events target_events adapter = result ∧
      StInv adapter source_events target_events st2 ∧ StInvN st2 := by
  have hwf : ∀ se ∈ (mixedEventsOf adapter source_events target_events).mergeSort sweepLE,
      MarkerWf adapter source_events target_events se := by
    intro se hse
    exact markerWf_of_mem_mixed adapter source_events target_events se
      ((List.mergeSort_perm (mixedEventsOf adapter source_events target_events) sweepLE).mem_iff.mp hse)
  have hinv0 : StInv adapter source_events target_events (([], []) :
      List ChromeTraceEvent × List (Nat × List ChromeTraceEvent)) :=
    ⟨by simp, by simp, by simp, by simp, by simp, by simp⟩
  obtain ⟨st2, hst2, hinvA⟩ :=
    sweepFold_inv adapter source_events target_events _ hwf ([], []) hinv0
  have hinvN : StInvN st2 :=
    (sweepFold_invN adapter source_events target_events _ hwf ([], []) st2 hinv0
      (by simp [StInvN]) hst2).2
  obtain ⟨result, hresult⟩ := convFold_some adapter source_events st2.2 [] hinvA.2.1
  refine ⟨st2, result, hst2, hresult, ?_, hinvA, hinvN⟩
  unfold find_overlapping_intervals find_overlapping_intervals?
  rw [hst2, Option.some_bind, hresult]
  rfl

theorem lookupLastIdx_of_get (sources : List ChromeTraceEvent)
    (hnd : (sources.map (fun e => e.addr)).Nodup) (i : Nat) (e : ChromeTraceEvent)
    (hget : sources.get? i = some e) : lookupLastIdx sources e.addr = some i := by
  obtain ⟨j, hj⟩ := lookupLastIdx_isSome_of_mem sources e (List.get?_mem hget)
  obtain ⟨w, hw, hwa⟩ := lookupLastIdx_spec sources e.addr j hj
  have hwe : w = e := nodup_addr_inj sources hnd w e (List.get?_mem hw) (List.get?_mem hget) hwa
  subst hwe
  have hji : j = i := by
    refine List.get?_inj ?_ hnd.of_map (hw.trans hget.symm)
    exact lookupLastIdx_lt_length sources w.addr j hj
  rw [← hji]
  exact hj

theorem overlap_pair_char (adapter : EventAdapter) (sources targets : List ChromeTraceEvent)
    (hnd : (sources.map (fun e => e.addr)).Nodup)
    (hinj : ∀ e1 ∈ sources, ∀ e2 ∈ sources,
      adapter.get_event_id e1 = adapter.get_event_id e2 → e1 = e2)
    (k : Nat) (t : ChromeTraceEvent) :
    MemBucket (find_overlapping_intervals sources targets adapter) k t ↔
      ∃ src ∈ sources, adapter.get_event_id src = k ∧
        ∃ s1 s2, adapter.get_time_range src = some (s1, s2) ∧
          t ∈ targets ∧ ∃ u v, adapter.get_time_range t = some (u, v) ∧
            s1 ≤ u ∧ (s1 ≤ s2 → u ≤ s2) := by
  obtain ⟨st2, result, hfoldEq, hconv, hfind, hinvA, hinvN⟩ :=
    findOverlap_unfold sources targets adapter
  rw [hfind]
  constructor
  · rintro ⟨l, hlook, htl⟩
    have hmemres := lookupEntry_mem result k l hlook
    rcases convFold_entries adapter sources st2.2 [] result hconv (k, l) hmemres with
      hin | ⟨kv2, hkv2, e, hget, hid, hval⟩
    · exact absurd hin (by simp)
    · simp only at hid hval
      have hesrc : e ∈ sources := List.get?_mem hget
      obtain ⟨e3, he3src, ⟨s1, s2, hr3⟩, hl3⟩ := hinvA.2.2.2.2.2 kv2 hkv2
      obtain ⟨w, hw, hwa⟩ := lookupLastIdx_spec sources e3.addr kv2.1 hl3
      have hwe : w = e := Option.some_injective _ (hw.symm.trans hget)
      have he3e : e3 = e := by
        rw [← hwe]
        exact nodup_addr_inj sources hnd e3 w he3src (List.get?_mem hw) hwa.symm
      subst he3e
      have hmb : MemBucket st2.2 kv2.1 t := by
        refine ⟨kv2.2, lookupEntry_of_mem_nodup st2.2 hinvN kv2 hkv2, ?_⟩
        rw [← hval]
        exact htl
      obtain ⟨htmem, u, v, htr⟩ := hinvA.2.2.2.1 kv2 hkv2 t (hval ▸ htl)
      have hcond := (sweep_res_char adapter sources targets hnd e3 he3src s1 s2 hr3 kv2.1
        hl3 t htmem u v htr st2 hfoldEq).mp hmb
      exact ⟨e3, he3src, hid.symm, s1, s2, hr3, htmem, u, v, htr, hcond.1, hcond.2⟩
  · rintro ⟨src, hsmem, hid, s1, s2, hr, htmem, u, v, htr, hcond1, hcond2⟩
    obtain ⟨idx, hidx⟩ := lookupLastIdx_isSome_of_mem sources src hsmem
    have hget : sources.get? idx = some src :=
      lookupLastIdx_get_of_nodup sources hnd src hsmem idx hidx
    have hmb : MemBucket st2.2 idx t :=
      sweep_res_pos adapter sources targets hnd src hsmem s1 s2 hr idx hidx t htmem u v htr
        st2 hfoldEq hcond1 hcond2
    have htrans : lookupEntry result (adapter.get_event_id src) = lookupEntry st2.2 idx := by
      refine convFold_lookup adapter sources src idx st2.2 [] result hconv hinvN ?_ hget rfl
      intro kv h2 e hge hc
      have hes : e = src := hinj e (List.get?_mem hge) src hsmem hc
      subst hes
      refine List.get?_inj ?_ hnd.of_map (hge.trans hget.symm)
      exact (List.get?_eq_some.mp hge).1
    obtain ⟨l, hl, htl⟩ := hmb
    exact ⟨l, by rw [← hid, htrans]; exact hl, htl⟩

theorem overlap_key_char (adapter : EventAdapter) (sources targets : List ChromeTraceEvent)
    (hnd : (sources.map (fun e => e.addr)).Nodup)
    (hinj : ∀ e1 ∈ sources, ∀ e2 ∈ sources,
      adapter.get_event_id e1 = adapter.get_event_id e2 → e1 = e2)
    (src : ChromeTraceEvent) (hsmem : src ∈ sources) (s1 s2 : Int)
    (hr : adapter.get_time_range src = some (s1, s2)) :
    KeyIn (find_overlapping_intervals sources targets adapter) (adapter.get_event_id src) ↔
      ∃ t ∈ targets, ∃ u v, adapter.get_time_range t = some (u, v) ∧
        s1 ≤ u ∧ (s1 ≤ s2 → u ≤ s2) := by
  obtain ⟨st2, result, hfoldEq, hconv, hfind, hinvA, hinvN⟩ :=
    findOverlap_unfold sources targets adapter
  rw [hfind]
  obtain ⟨idx, hidx⟩ := lookupLastIdx_isSome_of_mem sources src hsmem
  have hget : sources.get? idx = some src :=
    lookupLastIdx_get_of_nodup sources hnd src hsmem idx hidx
  have htrans : lookupEntry result (adapter.get_event_id src) = lookupEntry st2.2 idx := by
    refine convFold_lookup adapter sources src idx st2.2 [] result hconv hinvN ?_ hget rfl
    intro kv h2 e hge hc
    have hes : e = src := hinj e (List.get?_mem hge) src hsmem hc
    subst hes
    refine List.get?_inj ?_ hnd.of_map (hge.trans hget.symm)
    exact (List.get?_eq_some.mp hge).1
  constructor
  · rintro ⟨l, hl⟩
    rw [htrans] at hl
    have hmemres := lookupEntry_mem st2.2 idx l hl
    have hlne : l ≠ [] := hinvA.2.2.1 (idx, l) hmemres
    obtain ⟨t, htm⟩ := List.exists_mem_of_ne_nil l hlne
    obtain ⟨htmem, u, v, htr⟩ := hinvA.2.2.2.1 (idx, l) hmemres t htm
    have hmb : MemBucket st2.2 idx t := ⟨l, hl, htm⟩
    have hcond := (sweep_res_char adapter sources targets hnd src hsmem s1 s2 hr idx hidx
      t htmem u v htr st2 hfoldEq).mp hmb
    exact ⟨t, htmem, u, v, htr, hcond.1, hcond.2⟩
  · rintro ⟨t, htmem, u, v, htr, hcond1, hcond2⟩
    have hmb : MemBucket st2.2 idx t :=
      sweep_res_pos adapter sources targets hnd src hsmem s1 s2 hr idx hidx t htmem u v htr
        st2 hfoldEq hcond1 hcond2
    obtain ⟨l, hl, -⟩ := hmb
    exact ⟨l, by rw [htrans]; exact hl⟩

/-- C1: with an adapter assigning distinct identities to distinct source
events (modelled by pairwise-distinct source addresses and an
identity-injective adapter), a target with valid range `[t1,t2]` appears
in the result list of a source with valid range `[s1,s2]` iff
`(s1 < t1 ≤ s2) ∨ s1 = t1 ∨ t1 = s2` (equivalently `s1 ≤ t1 ≤ s2`), and
the returned map has a key for the source iff at least one target
overlaps it. -/
theorem c1_overlap_characterization (adapter : EventAdapter)
    (sources targets : List ChromeTraceEvent)
    (hnd : (sources.map (fun e => e.addr)).Nodup)
    (hinj : ∀ e1 ∈ sources, ∀ e2 ∈ sources,
      adapter.get_event_id e1 = adapter.get_event_id e2 → e1 = e2)
    (src : ChromeTraceEvent) (hsrc : src ∈ sources) (s1 s2 : Int)
    (hr : adapter.get_time_range src = some (s1, s2)) (hvs : s1 ≤ s2) :
    (∀ tgt ∈ targets, ∀ t1 t2 : Int, adapter.get_time_range tgt = some (t1, t2) → t1 ≤ t2 →
      (MemBucket (find_overlapping_intervals sources targets adapter)
          (adapter.get_event_id src) tgt ↔
        ((s1 < t1 ∧ t1 ≤ s2) ∨ s1 = t1 ∨ t1 = s2))) ∧
    (KeyIn (find_overlapping_intervals sources targets adapter) (adapter.get_event_id src) ↔
      ∃ tgt ∈ targets, ∃ t1 t2 : Int, adapter.get_time_range tgt = some (t1, t2) ∧
        s1 ≤ t1 ∧ t1 ≤ s2) := by
  constructor
  · intro tgt htm t1 t2 htr hvt
    rw [overlap_pair_char adapter sources targets hnd hinj]
    constructor
    · rintro ⟨src2, hmem2, hid2, s1b, s2b, hrb, -, u, v, htrb, hcu1, hcu2⟩
      have hsrc2 : src2 = src := hinj src2 hmem2 src hsrc hid2
      subst hsrc2
      have hs : s1b = s1 ∧ s2b = s2 := by
        have := Option.some_injective _ (hrb.symm.trans hr)
        exact ⟨congrArg Prod.fst this, congrArg Prod.snd this⟩
      have ht : u = t1 := by
        have := Option.some_injective _ (htrb.symm.trans htr)
        exact congrArg Prod.fst this
      obtain ⟨hs1, hs2⟩ := hs
      subst hs1; subst hs2; subst ht
      omega
    · intro hcond
      refine ⟨src, hsrc, rfl, s1, s2, hr, htm, t1, t2, htr, by omega, fun _ => by omega⟩
  · rw [overlap_key_char adapter sources targets hnd hinj src hsrc s1 s2 hr]
    constructor
    · rintro ⟨t, htm, u, v, htr, hc1, hc2⟩
      exact ⟨t, htm, u, v, htr, hc1, hc2 hvs⟩
    · rintro ⟨t, htm, u, v, htr, hc1, hc2⟩
      exact ⟨t, htm, u, v, htr, hc1, fun _ => hc2⟩

/-- Source event of Scenario 1 with range 100000–200000 ns. -/
def c1Src : ChromeTraceEvent :=
  ⟨100, [("start_ns", .jint 100000), ("end_ns", .jint 200000)]⟩

/-- Target event of Scenario 1 with range 150000–180000 ns. -/
def c1Tgt : ChromeTraceEvent :=
  ⟨200, [("start_ns", .jint 150000), ("end_ns", .jint 180000)]⟩

/-- Witness for C1 at Scenario 1. -/
theorem c1_overlap_characterization_witness :
    (MemBucket (find_overlapping_intervals [c1Src] [c1Tgt] NsysEventAdapter)
        (NsysEventAdapter.get_event_id c1Src) c1Tgt ↔
      (((100000 : Int) < 150000 ∧ (150000 : Int) ≤ 200000) ∨
        (100000 : Int) = 150000 ∨ (150000 : Int) = 200000)) ∧
    (KeyIn (find_overlapping_intervals [c1Src] [c1Tgt] NsysEventAdapter)
        (NsysEventAdapter.get_event_id c1Src) ↔
      ∃ tgt ∈ [c1Tgt], ∃ t1 t2 : Int,
        NsysEventAdapter.get_time_range tgt = some (t1, t2) ∧
          (100000 : Int) ≤ t1 ∧ t1 ≤ 200000) := by
  have h := c1_overlap_characterization NsysEventAdapter [c1Src] [c1Tgt]
    (by decide) (by decide) c1Src (by decide) 100000 200000 (by decide) (by decide)
  exact ⟨h.1 c1Tgt (by decide) 150000 180000 (by decide) (by decide), h.2⟩

/-- C5: permuting the source list and the target list changes neither
which (source identity, overlapping target) pairs are found — membership
of any target in the bucket of any identity is invariant (only the
reported order may differ). -/
theorem c5_permutation_invariance (adapter : EventAdapter)
    (sources sources2 targets targets2 : List ChromeTraceEvent)
    (hps : sources.Perm sources2) (hpt : targets.Perm targets2)
    (hnd : (sources.map (fun e => e.addr)).Nodup)
    (hinj : ∀ e1 ∈ sources, ∀ e2 ∈ sources,
      adapter.get_event_id e1 = adapter.get_event_id e2 → e1 = e2)
    (k : Nat) (t : ChromeTraceEvent) :
    (MemBucket (find_overlapping_intervals sources targets adapter) k t ↔
      MemBucket (find_overlapping_intervals sources2 targets2 adapter) k t) := by
  have hnd2 : (sources2.map (fun e => e.addr)).Nodup :=
    (hps.map (fun e => e.addr)).nodup_iff.mp hnd
  have hinj2 : ∀ e1 ∈ sources2, ∀ e2 ∈ sources2,
      adapter.get_event_id e1 = adapter.get_event_id e2 → e1 = e2 := by
    intro e1 h1 e2 h2 hc
    exact hinj e1 (hps.mem_iff.mpr h1) e2 (hps.mem_iff.mpr h2) hc
  rw [overlap_pair_char adapter sources targets hnd hinj k t,
    overlap_pair_char adapter sources2 targets2 hnd2 hinj2 k t]
  constructor
  · rintro ⟨src, hm, hid, s1, s2, hr, htm, u, v, htr, hc1, hc2⟩
    exact ⟨src, hps.mem_iff.mp hm, hid, s1, s2, hr, hpt.mem_iff.mp htm, u, v, htr, hc1, hc2⟩
  · rintro ⟨src, hm, hid, s1, s2, hr, htm, u, v, htr, hc1, hc2⟩
    exact ⟨src, hps.mem_iff.mpr hm, hid, s1, s2, hr, hpt.mem_iff.mpr htm, u, v, htr, hc1, hc2⟩

/-- Source event A for the C5 witness. -/
def c5A : ChromeTraceEvent :=
  ⟨300, [("start_ns", .jint 100000), ("end_ns", .jint 200000)]⟩

/-- Source event B for the C5 witness. -/
def c5B : ChromeTraceEvent :=
  ⟨301, [("start_ns", .jint 300000), ("end_ns", .jint 400000)]⟩

/-- Target event for the C5 witness. -/
def c5T : ChromeTraceEvent :=
  ⟨302, [("start_ns", .jint 150000), ("end_ns", .jint 160000)]⟩

/-- Witness for C5 with the two sources swapped. -/
theorem c5_permutation_invariance_witness :
    MemBucket (find_overlapping_intervals [c5A, c5B] [c5T] NsysEventAdapter) 300 c5T ↔
      MemBucket (find_overlapping_intervals [c5B, c5A] [c5T] NsysEventAdapter) 300 c5T :=
  c5_permutation_invariance NsysEventAdapter [c5A, c5B] [c5B, c5A] [c5T] [c5T]
    (by decide) (by decide) (by decide) (by decide) 300 c5T

/-- C6: an event whose attribute bag lacks `start_ns` or lacks `end_ns`
has no time range under `NsysEventAdapter` (no fallback to the display
timestamp), emits no sweep markers, and consequently — as a source whose
address no other source shares — its identity is never a key of the
overlap map, and as a target it appears in no source's overlap list. -/
theorem c6_missing_time_range (e : ChromeTraceEvent)
    (hmiss : argsGet e.args ("start_ns") = none ∨ argsGet e.args ("end_ns") = none) :
    NsysEventAdapter.get_time_range e = none ∧
    (∀ (o : EventOrigin) (events : List ChromeTraceEvent) (m : SweepEvent),
      m ∈ markersOf NsysEventAdapter o events → m.event_ref ≠ e) ∧
    (∀ sources targets : List ChromeTraceEvent,
      (∀ e2 ∈ sources, e2.addr = e.addr → e2 = e) →
      ¬ KeyIn (find_overlapping_intervals sources targets NsysEventAdapter)
          (NsysEventAdapter.get_event_id e)) ∧
    (∀ (sources targets : List ChromeTraceEvent) (k : Nat),
      ¬ MemBucket (find_overlapping_intervals sources targets NsysEventAdapter) k e) := by
  have hrange : NsysEventAdapter.get_time_range e = none := by
    show nsysGetTimeRange e = none
    unfold nsysGetTimeRange
    rcases hmiss with h | h
    · rw [h]
      rfl
    · rw [h]
      cases (argsGet e.args ("start_ns")).bind JsonValue.as_i64 <;> rfl
  refine ⟨hrange, ?_, ?_, ?_⟩
  · intro o events m hm heq
    obtain ⟨e2, -, s, t, hre2, hcase⟩ := (mem_markersOf _ _ _ _).mp hm
    have he2 : m.event_ref = e2 := by
      rcases hcase with h | h <;> rw [h]
    rw [heq] at he2
    rw [← he2] at hre2
    rw [hrange] at hre2
    exact Option.noConfusion hre2
  · intro sources targets huniq hkey
    obtain ⟨st2, result, hfoldEq, hconv, hfind, hinvA, -⟩ :=
      findOverlap_unfold sources targets NsysEventAdapter
    rw [hfind] at hkey
    obtain ⟨l, hlook⟩ := hkey
    have hmemres := lookupEntry_mem result _ l hlook
    rcases convFold_entries NsysEventAdapter sources st2.2 [] result hconv _ hmemres with
      hin | ⟨kv2, hkv2, e2, hget, hid, -⟩
    · exact absurd hin (by simp)
    · simp only at hid
      obtain ⟨e3, he3src, ⟨a, b, hr3⟩, hl3⟩ := hinvA.2.2.2.2.2 kv2 hkv2
      obtain ⟨w, hw, hwa⟩ := lookupLastIdx_spec sources e3.addr kv2.1 hl3
      have hwe : w = e2 := Option.some_injective _ (hw.symm.trans hget)
      have he3addr : e3.addr = e.addr := by
        rw [← hwa, hwe]
        exact hid.symm
      have he3e : e3 = e := huniq e3 he3src he3addr
      rw [he3e, hrange] at hr3
      exact Option.noConfusion hr3
  · intro sources targets k hmem
    obtain ⟨st2, result, hfoldEq, hconv, hfind, hinvA, -⟩ :=
      findOverlap_unfold sources targets NsysEventAdapter
    rw [hfind] at hmem
    obtain ⟨l, hlook, hel⟩ := hmem
    have hmemres := lookupEntry_mem result k l hlook
    rcases convFold_entries NsysEventAdapter sources st2.2 [] result hconv _ hmemres with
      hin | ⟨kv2, hkv2, e2, -, -, hval⟩
    · exact absurd hin (by simp)
    · simp only at hval
      obtain ⟨-, a, b, hre⟩ := hinvA.2.2.2.1 kv2 hkv2 e (hval ▸ hel)
      rw [hrange] at hre
      exact Option.noConfusion hre

/-- Event lacking `start_ns`, for the C6 witness. -/
def c6Ev : ChromeTraceEvent := ⟨400, [("end_ns", .jint 5)]⟩

/-- A valid source event sharing no address with `c6Ev`, for the C6
witness. -/
def c6Src : ChromeTraceEvent :=
  ⟨500, [("start_ns", .jint 0), ("end_ns", .jint 1000000)]⟩

/-- Witness for C6 at a concrete event lacking `start_ns`. -/
theorem c6_missing_time_range_witness :
    NsysEventAdapter.get_time_range c6Ev = none ∧
    ¬ KeyIn (find_overlapping_intervals [c6Ev] [c6Src] NsysEventAdapter)
        (NsysEventAdapter.get_event_id c6Ev) ∧
    ¬ MemBucket (find_overlapping_intervals [c6Src] [c6Ev] NsysEventAdapter) 500 c6Ev := by
  have h := c6_missing_time_range c6Ev (by decide)
  exact ⟨h.1, h.2.2.1 [c6Ev] [c6Src] (by decide), h.2.2.2 [c6Src] [c6Ev] 500⟩
